import Mathlib

/-!
# Verification of the dicomsort path-mapping core

A shallow embedding of `src/dicomsort/parser.py`, `src/dicomsort/core.py` and
`src/dicomsort/mappers.py`.  Python classes become inductive types, stateful
code becomes explicit state passing, fallible code returns `Option`/`Except`.
The embedding keeps the source's names where Lean allows it.
-/

set_option maxRecDepth 4096

namespace Dicomsort

/-- `os.sep` on the platform the program runs on (a POSIX system is assumed;
none of the verified properties depend on the actual separator string). -/
def osSep : String := "/"

/-- The `DicomPathElement` class hierarchy of `parser.py`:
`StringLiteral`, `FolderSeparator`, `RootSlash`, `DicomTag` (a code such as
"0010,0020", with its `count` flag) and `DicomTagName` (a mnemonic such as
"PatientID", with its `count` flag).  `RootSlash` and `FolderSeparator` are
distinct classes in the source, and `type(x) == FolderSeparator` checks used
below distinguish them. -/
inductive DicomPathElement where
  | stringLiteral (content : String)
  | folderSeparator
  | rootSlash
  | dicomTag (tag_code : String) (countFlag : Bool)
  | dicomTagName (name : String) (countFlag : Bool)
deriving DecidableEq, Repr

/-- `hasattr(path_element, 'count')`: only the `VariableElement` subclasses
(`DicomTag`, `DicomTagName`) carry a `count` attribute. -/
def DicomPathElement.countAttr : DicomPathElement → Bool
  | .dicomTag _ c => c
  | .dicomTagName _ c => c
  | _ => false

/-- Whether the element is a `VariableElement` (has a `count` attribute). -/
def DicomPathElement.isVariable : DicomPathElement → Bool
  | .dicomTag _ _ => true
  | .dicomTagName _ _ => true
  | _ => false

/-- `ResolvedPathElement` of `parser.py`: the originating element (`None` when
a sentinel was substituted) together with the resolved string value. -/
structure ResolvedPathElement where
  path_element : Option DicomPathElement
  resolved_value : String
deriving DecidableEq, Repr

/-- `ResolvedPathElement.count`: delegates to the originating element's
`count` attribute when it exists (`hasattr`), else `False`. -/
def ResolvedPathElement.count (r : ResolvedPathElement) : Bool :=
  match r.path_element with
  | some e => if e.isVariable then e.countAttr else false
  | none => false

/-- `VariableElement.clean_string`: strip surrounding whitespace, replace
inner spaces by underscores. -/
def clean_string (s : String) : String :=
  (s.trim).replace " " "_"

/-- A hexadecimal digit as accepted by `[0-9a-fA-F]` (and by lark's
`HEXDIGIT` terminal). -/
def isHexChar (c : Char) : Bool :=
  c.isDigit || ('a' ≤ c && c ≤ 'f') || ('A' ≤ c && c ≤ 'F')

/-- `DicomTag.is_valid`: `re.match('[0-9a-fA-F]{4},[0-9a-fA-F]{4}', tag_code)`.
`re.match` anchors at the start only, so the string must *begin* with
four hex digits, a comma and four hex digits; trailing characters are
allowed. -/
def isValidTagCode (s : String) : Bool :=
  match s.data with
  | a :: b :: c :: d :: m :: e :: f :: g :: h :: _ =>
      isHexChar a && isHexChar b && isHexChar c && isHexChar d && (m = ',') &&
      isHexChar e && isHexChar f && isHexChar g && isHexChar h
  | _ => false

/-- `DicomPathElement.is_valid`, dispatched over the class hierarchy.
`kw` is the external pydicom keyword dictionary (`tag_for_keyword(name) is
not None`), modelled as an opaque predicate. -/
def DicomPathElement.is_valid (kw : String → Bool) : DicomPathElement → Bool
  | .stringLiteral _ => true
  | .folderSeparator => true
  | .rootSlash => true
  | .dicomTag code _ => isValidTagCode code
  | .dicomTagName n _ => kw n

/-- The item's metadata (a pydicom `Dataset`), modelled as the opaque lookup
service the resolver uses: lookup by `(group, element)` hex-string pair and
lookup by keyword (the composite `ds[tag_for_keyword(name)]`).  `none` models
the `KeyError` raised on a missing tag. -/
structure Dataset where
  lookupCode : String → String → Option String
  lookupKeyword : String → Option String

/-- The two branches of the resolution-error family:
`DicomTagResolutionException` raised for a malformed/unknown tag, and its
subtype `DicomTagNotFoundException` raised when the tag is absent from the
item's metadata. -/
inductive ResolveError where
  | malformed
  | notFound
deriving DecidableEq, Repr

/-- `DicomPathElement.resolve` over the class hierarchy (`parser.py`):
literals and separators always succeed; tag elements first check their own
validity (raising the general resolution error if malformed/unknown), then
look the tag up (raising the not-found subtype on a missing key), cleaning
the value on success. -/
def DicomPathElement.resolve (kw : String → Bool) (ds : Dataset) :
    DicomPathElement → Except ResolveError ResolvedPathElement
  | .stringLiteral s => .ok ⟨some (.stringLiteral s), s⟩
  | .folderSeparator => .ok ⟨some .folderSeparator, osSep⟩
  | .rootSlash => .ok ⟨some .rootSlash, "/"⟩
  | .dicomTag code c =>
      if isValidTagCode code then
        match ds.lookupCode (code.take 4) ((code.drop 5).take 4) with
        | some v => .ok ⟨some (.dicomTag code c), clean_string v⟩
        | none => .error .notFound
      else .error .malformed
  | .dicomTagName n c =>
      if kw n then
        match ds.lookupKeyword n with
        | some v => .ok ⟨some (.dicomTagName n c), clean_string v⟩
        | none => .error .notFound
      else .error .malformed

/-- `PathGenerator.UNKNOWN_ELEMENT_NAME`. -/
def UNKNOWN_ELEMENT_NAME : String := "UNKNOWN"

/-- The sentinel element substituted by `PathGenerator.generate` when a tag
is not found: `ResolvedPathElement(path_element=None, resolved_value="UNKNOWN")`. -/
def sentinelRPE : ResolvedPathElement :=
  ⟨none, UNKNOWN_ELEMENT_NAME⟩

/-- The resolution loop of `PathGenerator.generate`: resolve each element;
a `DicomTagNotFoundException` is caught and replaced by the sentinel, while
any other resolution error propagates. -/
def resolveAll (kw : String → Bool) (ds : Dataset) :
    List DicomPathElement → Except ResolveError (List ResolvedPathElement)
  | [] => .ok []
  | e :: rest =>
      match e.resolve kw ds with
      | .ok r => (resolveAll kw ds rest).map (fun rs => r :: rs)
      | .error .notFound => (resolveAll kw ds rest).map (fun rs => sentinelRPE :: rs)
      | .error .malformed => .error .malformed

/-- `split_list` of `core.py`, written with the explicit `collected`
accumulator of the source loop. -/
def split_list_aux (sep : α → Bool) : List α → List α → List (List α)
  | [], collected => if collected.isEmpty then [] else [collected]
  | x :: rest, collected =>
      if sep x then
        if collected.isEmpty then split_list_aux sep rest []
        else collected :: split_list_aux sep rest []
      else split_list_aux sep rest (collected ++ [x])

/-- `split_list(list_in, separator_func)`: split at separators, dropping the
separators, emitting no empty groups.  (The source's early `return list_in`
for an empty input returns the empty list, which coincides with the general
case.) -/
def split_list (l : List α) (sep : α → Bool) : List (List α) :=
  split_list_aux sep l []

/-- The separator predicate used by `PathGenerator.generate`:
`type(x.path_element) == FolderSeparator`.  This is an exact class check:
it is `False` for `RootSlash` and for the sentinel's `None`. -/
def isFolderSepRPE (r : ResolvedPathElement) : Bool :=
  match r.path_element with
  | some .folderSeparator => true
  | _ => false

/-- `PathUnit`: the resolved elements forming one folder or file name. -/
structure PathUnit where
  path_elements : List ResolvedPathElement
deriving DecidableEq, Repr

/-- `PathUnit.flatten`: concatenation of the members' resolved values. -/
def PathUnit.flatten (u : PathUnit) : String :=
  String.join (u.path_elements.map (fun r => r.resolved_value))

/-- `PathUnit.count`: true when any member counts. -/
def PathUnit.countU (u : PathUnit) : Bool :=
  u.path_elements.any (fun r => r.count)

/-- `TentativePath`: the ordered units of one item's destination. -/
structure TentativePath where
  units : List PathUnit
deriving DecidableEq, Repr

/-- `TentativePath.flatten`: `os.sep.join` of the units' flattened names. -/
def TentativePath.flatten (p : TentativePath) : String :=
  String.intercalate osSep (p.units.map PathUnit.flatten)

/-- The unit-grouping step of `PathGenerator.generate`: split the resolved
elements at `FolderSeparator` elements and wrap each group in a `PathUnit`. -/
def groupUnits (resolved : List ResolvedPathElement) : List PathUnit :=
  (split_list resolved isFolderSepRPE).map PathUnit.mk

/-- `PathGenerator.generate`, after the file has been read: resolve all
pattern elements (with sentinel substitution for missing tags) and group the
result into units. -/
def generate (kw : String → Bool) (ds : Dataset) (elements : List DicomPathElement) :
    Except ResolveError TentativePath :=
  (resolveAll kw ds elements).map (fun resolved => ⟨groupUnits resolved⟩)

/-- `TreeNode` of `core.py`: a folder or file name (a `PathUnit`, so it
carries `path_elements`) together with its children.  The parent
back-reference of the source is used only to reconstruct paths; here chains
of nodes are addressed positionally from the root by lists of child indices,
which is faithful because insertion only ever appends children and the
counting pass never adds, removes or reorders nodes. -/
inductive TreeNode where
  | node (path_elements : List ResolvedPathElement) (children : List TreeNode)

def TreeNode.path_elements : TreeNode → List ResolvedPathElement
  | .node es _ => es

def TreeNode.children : TreeNode → List TreeNode
  | .node _ cs => cs

/-- `PathUnit.flatten` applied to a tree node. -/
def TreeNode.flatten (t : TreeNode) : String :=
  String.join (t.path_elements.map (fun r => r.resolved_value))

/-- The lookup `child_map[node.flatten()]` where
`child_map = dict(map(lambda x: (x.flatten(), x), self.children))`:
a Python dict comprehension keeps the *last* entry for a repeated key, so
this returns the index of the last child whose flattened value equals `key`. -/
def findLastIdx (key : String) : List TreeNode → Option Nat
  | [] => none
  | c :: rest =>
      match findLastIdx key rest with
      | some i => some (i + 1)
      | none => if c.flatten = key then some 0 else none

/-- `TreeNode.add`: consume the tentative path's units front to back
(`path_in.pop(0)`), at each level reusing the child with an equal flattened
value when it exists and appending a new child otherwise; the returned index
list addresses the terminal node.  `pop(0)` on an empty unit list raises
`IndexError` in the source, modelled by `none`. -/
def TreeNode.add : TreeNode → List PathUnit → Option (TreeNode × List Nat)
  | _, [] => none
  | .node es cs, u :: rest =>
      match findLastIdx u.flatten cs with
      | some i =>
          if rest.isEmpty then some (.node es cs, [i])
          else
            match cs[i]? with
            | some c =>
                (c.add rest).map (fun pr => (.node es (cs.set i pr.1), i :: pr.2))
            | none => none
      | none =>
          if rest.isEmpty then
            some (.node es (cs ++ [.node u.path_elements []]), [cs.length])
          else
            ((TreeNode.node u.path_elements []).add rest).map
              (fun pr => (.node es (cs ++ [pr.1]), cs.length :: pr.2))

/-- Follow a list of child indices from a node, returning the chain of nodes
visited (the node itself excluded, matching
`get_all_parent_elements()[1:]` which discards the root). -/
def TreeNode.chain : TreeNode → List Nat → Option (List TreeNode)
  | _, [] => some []
  | t, i :: rest =>
      match t.children[i]? with
      | some c => (c.chain rest).map (fun ns => c :: ns)
      | none => none

/-- `TreeNode.flatten_full_path` for the node addressed by `ixs`, relative to
the root `t`: `os.sep.join` of the flattened values of the chain from the
root (root itself discarded). -/
def flattenChain (t : TreeNode) (ixs : List Nat) : Option String :=
  (t.chain ixs).map (fun ns => String.intercalate osSep (ns.map TreeNode.flatten))

/-- The deduplication invariant of the tree: every node's children have
pairwise distinct flattened values, recursively. -/
def sibDistinct : TreeNode → Prop
  | .node _ cs => (cs.map TreeNode.flatten).Nodup ∧ ∀ c ∈ cs.attach, sibDistinct c.1
decreasing_by
  have := List.sizeOf_lt_of_mem c.2
  simp only [TreeNode.node.sizeOf_spec]
  omega

/-- The positional sibling group of `apply_count`:
`path_elements_for_all_children[idx]`, i.e. the `idx`-th resolved element of
every child that has at least `idx + 1` elements, in child order. -/
def groupAt (cs : List TreeNode) (idx : Nat) : List ResolvedPathElement :=
  cs.filterMap (fun c => c.path_elements.get? idx)

/-- `format(idx, "0" + str(w))`: decimal, left-padded with zeros to width
`w` (unchanged when already at least `w` digits long). -/
def padZero (w : Nat) (n : Nat) : String :=
  let s := toString n
  if s.length < w then String.mk (List.replicate (w - s.length) '0') ++ s else s

/-- The per-group renaming of `apply_count`: distinct resolved values (the
Python `set`, modelled with `List.dedup`; the verified properties do not
depend on the enumeration order) are numbered `0, 1, ...` and every value is
replaced by its index, zero-padded to
`string_length = len(str(len(elementlist)))`, the digit count of the *group
size*. -/
def countValue (vals : List String) (v : String) : String :=
  padZero (toString vals.length).length (vals.dedup.indexOf v)

/-- The rewriting that `apply_count` performs on the elements of one child
`c` of a node whose (original) children are `cs`: the element at position
`idx` is renamed exactly when the first member of the sibling group at `idx`
has `count() == True`. -/
def rewriteOne (cs : List TreeNode) (idx : Nat) (e : ResolvedPathElement) :
    ResolvedPathElement :=
  match (groupAt cs idx).head? with
  | some e0 =>
      if e0.count then
        ⟨e.path_element,
         countValue ((groupAt cs idx).map (fun r => r.resolved_value)) e.resolved_value⟩
      else e
  | none => e

/-- All elements of child `c` of a node with children `cs`, rewritten by the
counting pass (`enumerate(child.path_elements)` of the source). -/
def rewriteElems (cs : List TreeNode) (c : TreeNode) : List ResolvedPathElement :=
  c.path_elements.mapIdx (fun idx e => rewriteOne cs idx e)

/-- `PathTreeMapping.apply_count`, recursively from a node whose own
elements have already been rewritten to `es` by the caller (the source
rewrites the children of a node in place and then recurses into each
child). -/
def applyCountAux : List ResolvedPathElement → TreeNode → TreeNode
  | es, .node _ cs =>
      .node es (cs.attach.map (fun pr => applyCountAux (rewriteElems cs pr.1) pr.1))
decreasing_by
  have := List.sizeOf_lt_of_mem pr.2
  simp only [TreeNode.node.sizeOf_spec]
  omega

/-- `tree.apply_count()` called on the root (the root's own elements are
never rewritten because the root has no parent). -/
def apply_count (t : TreeNode) : TreeNode :=
  applyCountAux t.path_elements t

/-- `PathTreeMapping`: the root node together with the `data` dict mapping
each original path to (the address of) its terminal node. -/
structure PathTreeMapping where
  root : TreeNode
  data : List (String × List Nat)

/-- The loop of `StraightPathMapping.as_tree`: insert every tentative path
into the tree, recording each item's terminal node. -/
def addAll : TreeNode → List (String × TentativePath) →
    Option (TreeNode × List (String × List Nat))
  | t, [] => some (t, [])
  | t, (org, p) :: rest =>
      (t.add p.units).bind (fun pr =>
        (addAll pr.1 rest).map (fun pr2 => (pr2.1, (org, pr.2) :: pr2.2)))

/-- `StraightPathMapping.as_tree`: build a `PathTreeMapping` from an empty
root.  The source deep-copies each tentative path before the destructive
insertion; in this pure embedding the argument is never mutated, which is
exactly the behaviour that discipline guarantees. -/
def as_tree (m : List (String × TentativePath)) : Option PathTreeMapping :=
  (addAll (.node [] []) m).map (fun pr => ⟨pr.1, pr.2⟩)

/-- `StraightPathMapping.as_flat_dict`: flatten each tentative path. -/
def straightFlatDict (m : List (String × TentativePath)) : List (String × String) :=
  m.map (fun pr => (pr.1, pr.2.flatten))

/-- `PathTreeMapping.as_flat_dict`: for each item follow its terminal node's
parent chain (discarding the root) and join the flattened values. -/
def treeFlatDict (tm : PathTreeMapping) : Option (List (String × String)) :=
  tm.data.mapM (fun pr => (flattenChain tm.root pr.2).map (fun s => (pr.1, s)))

/-! ## The pattern grammar (`DicomPathPatternParser` of `parser.py`)

The source hands a small grammar to lark's earley parser:

`dicom_path_pattern: root_slash? element+` —
`element: dicom_element|string_literal|folder_separator` —
`string_literal: (LETTER|"_"|"-"|"+"|"."|DIGIT)+` —
`dicom_element: "(" count_flag? (LETTER+ | HEXDIGIT~4 COMMA HEXDIGIT~4) ")"` —
`folder_separator: "/"|"\\"` — `root_slash.2: "/"` — `count_flag: "count:"`.

The grammar is deterministic up to the segmentation of literal runs and the
leading `/` (which the priority mark resolves towards `root_slash` whenever
at least one element follows); the functional parser below implements it
with maximal-munch literal runs and that tie-break, which recognises the
same language.  The transformer of the source turns the parse tree into the
element list; the functions below produce the elements directly. -/

/-- A character of `STRING_LITERAL`: letters, digits, `_`, `-`, `+`, `.`. -/
def isLiteralChar (c : Char) : Bool :=
  c.isAlpha || c.isDigit || c = '_' || c = '-' || c = '+' || c = '.'

/-- Strip an optional `count:` marker just after an opening parenthesis
(`count_flag`); returns the flag and the remaining input. -/
def countSplit (cs : List Char) : Bool × List Char :=
  match cs with
  | 'c' :: 'o' :: 'u' :: 'n' :: 't' :: ':' :: rest => (true, rest)
  | _ => (false, cs)

/-- Parse the body of a parenthesised tag reference (input starts after the
optional `count:`): either exactly four hex digits, a comma, four hex digits
and the closing parenthesis (`dicom_element_tag_code`), or a nonempty run of
letters and the closing parenthesis (`dicom_element_tag_name`).  A comma can
occur in no letter run, so the two alternatives never overlap. -/
def parseTagBody (hasCount : Bool) (cs : List Char) :
    Option (DicomPathElement × List Char) :=
  match cs with
  | a :: b :: c :: d :: ',' :: e :: f :: g :: h :: ')' :: rest =>
      if isHexChar a && isHexChar b && isHexChar c && isHexChar d &&
         isHexChar e && isHexChar f && isHexChar g && isHexChar h then
        some (.dicomTag (String.mk [a, b, c, d, ',', e, f, g, h]) hasCount, rest)
      else none
  | _ =>
      match cs.span Char.isAlpha with
      | (letters, rest1) =>
          match letters, rest1 with
          | _ :: _, ')' :: rest => some (.dicomTagName (String.mk letters) hasCount, rest)
          | _, _ => none

/-- Parse one `element`: a separator character, a parenthesised tag
reference, or a maximal literal run. -/
def parseOneElement : List Char → Option (DicomPathElement × List Char)
  | [] => none
  | '/' :: rest => some (.folderSeparator, rest)
  | '\\' :: rest => some (.folderSeparator, rest)
  | '(' :: rest =>
      let pr := countSplit rest
      parseTagBody pr.1 pr.2
  | c :: rest =>
      if isLiteralChar c then
        let pr := (c :: rest).span isLiteralChar
        some (.stringLiteral (String.mk pr.1), pr.2)
      else none

/-- Parse `element*` to the end of the input.  Every successful
`parseOneElement` step consumes at least one character, so fuel exceeding
the input length never runs out. -/
def parseAllElements : Nat → List Char → Option (List DicomPathElement)
  | 0, _ => none
  | _ + 1, [] => some []
  | fuel + 1, cs =>
      (parseOneElement cs).bind (fun pr =>
        (parseAllElements fuel pr.2).map (fun es => pr.1 :: es))

/-- `dicom_path_pattern: root_slash? element+`.  A leading `/` is read as
`root_slash` (priority 2) whenever at least one element follows; otherwise
the whole input is parsed as plain elements, of which there must be at least
one. -/
def grammarParse (s : String) : Option (List DicomPathElement) :=
  match s.data with
  | '/' :: rest =>
      match parseAllElements (rest.length + 1) rest with
      | some (e :: es) => some (.rootSlash :: e :: es)
      | _ =>
          match parseAllElements (s.data.length + 1) s.data with
          | some (e :: es) => some (e :: es)
          | _ => none
  | cs =>
      match parseAllElements (cs.length + 1) cs with
      | some (e :: es) => some (e :: es)
      | _ => none

/-- `DicomPathPatternParser.parse`: run the grammar (any lark failure
becomes a `DicomPathParseException`, here `.error ()`), then check every
`DicomTagName` against the external keyword dictionary `kw`
(`tag_for_keyword(name) is not None`), rejecting unknown mnemonics. -/
def parsePattern (kw : String → Bool) (s : String) :
    Except Unit (List DicomPathElement) :=
  match grammarParse s with
  | none => .error ()
  | some elems =>
      if elems.all (fun e =>
          match e with
          | .dicomTagName n _ => kw n
          | _ => true) then .ok elems
      else .error ()

/-! ## The mappers (`mappers.py`) -/

/-- All original paths that map to destination `dest` in the flat mapping
(`reverse_mapping[dest]` of `PathMapping.get_overlapping`), in insertion
order. -/
def originsFor (flat : List (String × String)) (dest : String) : List String :=
  (flat.filter (fun pr => pr.2 = dest)).map (fun pr => pr.1)

/-- `PathMapping.get_overlapping`: invert the flat mapping and keep the
destinations with more than one original
(`{x: y for x, y in reverse_mapping.items() if len(y) > 1}`).  The key
enumeration order of the Python dict is immaterial to every property proved
below; `List.dedup` supplies one concrete enumeration of the distinct
destinations. -/
def get_overlapping (flat : List (String × String)) : List (String × List String) :=
  ((flat.map (fun pr => pr.2)).dedup).filterMap (fun d =>
    if 1 < (originsFor flat d).length then some (d, originsFor flat d) else none)

/-- `FullPathMapper.WINDOWS_PATH_LENGTH_LIMIT`. -/
def WINDOWS_PATH_LENGTH_LIMIT : Nat := 260

/-- The three `MappingException` subclasses raised by `FullPathMapper.map`:
`OverlappingFilePathException`, `UnsafeMappingException` and
`PathTooLongForWindowsException`. -/
inductive MappingError where
  | overlapping
  | selfOverwrite
  | pathTooLong
deriving DecidableEq, Repr

/-- `FullPathMapper.map` after the straight mapping has been produced:
build the tree, apply the counting pass, then check — in this order — for
overlapping destinations, for destinations equal to an input path, and
(only when `check_path_lengths` is set) for destinations longer than 260
characters.  The outer `Option` models the uncaught `IndexError` that
`TreeNode.add` raises on an empty tentative path. -/
def fullMap (check_path_lengths : Bool) (straight : List (String × TentativePath)) :
    Option (Except MappingError (List (String × String))) :=
  (as_tree straight).bind (fun tm =>
    (treeFlatDict ⟨apply_count tm.root, tm.data⟩).map (fun flat =>
      if (get_overlapping flat).isEmpty = false then
        .error .overlapping
      else if flat.any (fun pr => flat.any (fun pr2 => pr2.1 = pr.2)) then
        .error .selfOverwrite
      else if check_path_lengths &&
          flat.any (fun pr => WINDOWS_PATH_LENGTH_LIMIT < pr.2.length) then
        .error .pathTooLong
      else .ok flat))

/-! ## Auxiliary definitions used by the statements below -/

/-- A dataset with no tags at all (every lookup raises `KeyError`). -/
def dsEmpty : Dataset :=
  ⟨fun _ _ => none, fun _ => none⟩

/-- The requested tag is absent from the item's metadata (the lookup that
`resolve` performs raises `KeyError`). -/
def tagAbsent (ds : Dataset) : DicomPathElement → Bool
  | .dicomTag code _ => (ds.lookupCode (code.take 4) ((code.drop 5).take 4)).isNone
  | .dicomTagName n _ => (ds.lookupKeyword n).isNone
  | _ => false

/-- The acceptance/rejection behaviour of claim C5, as a predicate of the
external keyword dictionary: the four malformed strings are rejected, the
three well-formed ones are accepted (with the element sequences the grammar
assigns them), and a grammatically parsed pattern containing a mnemonic
unknown to the dictionary is rejected. -/
def C5Prop (kw : String → Bool) : Prop :=
  parsePattern kw "(StudyInstanceUID)(" = .error () ∧
  parsePattern kw "(())" = .error () ∧
  parsePattern kw "(1045)" = .error () ∧
  parsePattern kw "(x1045001)" = .error () ∧
  parsePattern kw "(StudyInstanceUID)" =
    .ok [DicomPathElement.dicomTagName "StudyInstanceUID" false] ∧
  parsePattern kw "(0010,0020)/(0008,1030)-(0008,0050)" =
    .ok [DicomPathElement.dicomTag "0010,0020" false,
         DicomPathElement.folderSeparator,
         DicomPathElement.dicomTag "0008,1030" false,
         DicomPathElement.stringLiteral "-",
         DicomPathElement.dicomTag "0008,0050" false] ∧
  parsePattern kw "just_some_path/WITH/capitals/12345" =
    .ok [DicomPathElement.stringLiteral "just_some_path",
         DicomPathElement.folderSeparator,
         DicomPathElement.stringLiteral "WITH",
         DicomPathElement.folderSeparator,
         DicomPathElement.stringLiteral "capitals",
         DicomPathElement.folderSeparator,
         DicomPathElement.stringLiteral "12345"] ∧
  (∀ (s : String) (elems : List DicomPathElement) (n : String) (c : Bool),
    grammarParse s = some elems →
    DicomPathElement.dicomTagName n c ∈ elems →
    kw n = false →
    parsePattern kw s = .error ())

/-- A keyword dictionary knowing exactly the mnemonic `StudyInstanceUID`. -/
def kwStudy : String → Bool := fun s => s == "StudyInstanceUID"

/-- The tree/straight agreement of claim C3: building the tree succeeds and
flattening it gives exactly the straight mapping's flat dictionary. -/
def C3Prop (m : List (String × TentativePath)) : Prop :=
  ∃ tm, as_tree m = some tm ∧ treeFlatDict tm = some (straightFlatDict m)

/-- The tree invariants of claim C4 for the tree built from `m`:
the sibling-deduplication invariant holds everywhere; every item's recorded
terminal node is reached by a chain that consumes the item's units left to
right (one node per unit, flattened values matching in order); and items
agreeing on their first `k` flattened units share the identical chain of
`k` nodes from the root. -/
def C4Prop (m : List (String × TentativePath)) (tm : PathTreeMapping) : Prop :=
  sibDistinct tm.root ∧
  (∀ (j : Nat) (org : String) (ixs : List Nat), tm.data[j]? = some (org, ixs) →
    ∃ (p : TentativePath) (ns : List TreeNode),
      m[j]? = some (org, p) ∧ ixs.length = p.units.length ∧
      tm.root.chain ixs = some ns ∧
      ns.map TreeNode.flatten = p.units.map PathUnit.flatten) ∧
  (∀ (j1 j2 : Nat) (org1 org2 : String) (ixs1 ixs2 : List Nat)
      (p1 p2 : TentativePath) (k : Nat),
    tm.data[j1]? = some (org1, ixs1) → tm.data[j2]? = some (org2, ixs2) →
    m[j1]? = some (org1, p1) → m[j2]? = some (org2, p2) →
    (p1.units.map PathUnit.flatten).take k = (p2.units.map PathUnit.flatten).take k →
    ixs1.take k = ixs2.take k)

/-- A one-element unit resolving a string literal, for concrete examples. -/
def unitOf (s : String) : PathUnit :=
  ⟨[⟨some (.stringLiteral s), s⟩]⟩

/-- A concrete two-item straight mapping sharing the first unit `a`. -/
def wMap : List (String × TentativePath) :=
  [("f1", ⟨[unitOf "a", unitOf "b"]⟩), ("f2", ⟨[unitOf "a", unitOf "c"]⟩)]

/-- The tree `as_tree` builds from `wMap`: one shared `a` node with the two
children `b` and `c`. -/
def wTm : PathTreeMapping :=
  ⟨.node [] [.node (unitOf "a").path_elements
      [.node (unitOf "b").path_elements [], .node (unitOf "c").path_elements []]],
   [("f1", [0, 0]), ("f2", [0, 1])]⟩

/-- The node reached from `t` by following a list of child indices (the
node itself for the empty list). -/
def nodeAt : TreeNode → List Nat → Option TreeNode
  | t, [] => some t
  | t, i :: rest =>
      match t.children[i]? with
      | some c => nodeAt c rest
      | none => none

/-- A sibling group member carrying a counted tag with resolved value `s`. -/
def countedRPE (s : String) : ResolvedPathElement :=
  ⟨some (.dicomTag "0010,0020" true), s⟩

/-- A node with ten children, each a single counted element, with the ten
distinct resolved values `"v0" ... "v9"`. -/
def cexTen : TreeNode :=
  .node []
    ((List.range 10).map (fun k => .node [countedRPE ("v" ++ toString k)] []))

/-- A tree with one child carrying a single uncounted literal element. -/
def wUncounted : TreeNode :=
  .node [] [.node [⟨some (.stringLiteral "a"), "a"⟩] []]

/-- A 300-character folder name, exceeding the Windows path limit. -/
def longName : String := String.mk (List.replicate 300 'x')

/-- Two distinct items whose single-unit tentative paths are both the
overlong `longName` — they collide on one destination longer than 260. -/
def cexLongMap : List (String × TentativePath) :=
  [("a", ⟨[⟨[⟨some (.stringLiteral longName), longName⟩]⟩]⟩),
   ("b", ⟨[⟨[⟨some (.stringLiteral longName), longName⟩]⟩]⟩)]

/-- The tree mapping `as_tree` builds from `cexLongMap`. -/
def cexLongTm : PathTreeMapping :=
  ⟨.node [] [.node [⟨some (.stringLiteral longName), longName⟩] []],
   [("a", [0]), ("b", [0])]⟩

/-- The flat dictionary of `cexLongMap` after the counting pass. -/
def cexLongFlat : List (String × String) :=
  [("a", longName), ("b", longName)]

/-- What the counting pass actually does at position `idx` of the sibling
group under node `n` (reached at `ixs` from `t`), for claim C1: every group
member's resolved value is rewritten to the zero-padded index of its value
among the distinct values of the group, with width the decimal digit count
of the *group size*; the index assignment is a bijection between the
distinct values and `0 .. N-1`. -/
def C1Concl (t : TreeNode) (ixs : List Nat) (n : TreeNode) (idx : Nat) : Prop :=
  ∃ n', nodeAt (apply_count t) ixs = some n' ∧
    (∀ (j : Nat) (c : TreeNode) (e : ResolvedPathElement),
      n.children[j]? = some c → c.path_elements[idx]? = some e →
      ∃ c', n'.children[j]? = some c' ∧
        c'.path_elements[idx]? = some
          ⟨e.path_element,
           padZero (toString (groupAt n.children idx).length).length
             ((((groupAt n.children idx).map (fun r => r.resolved_value)).dedup).indexOf
               e.resolved_value)⟩) ∧
    (((groupAt n.children idx).map (fun r => r.resolved_value)).dedup).Nodup ∧
    (∀ v ∈ (((groupAt n.children idx).map (fun r => r.resolved_value)).dedup),
      (((groupAt n.children idx).map (fun r => r.resolved_value)).dedup).indexOf v <
        (((groupAt n.children idx).map (fun r => r.resolved_value)).dedup).length) ∧
    (∀ i : Nat, i < (((groupAt n.children idx).map (fun r => r.resolved_value)).dedup).length →
      ∃ v ∈ (((groupAt n.children idx).map (fun r => r.resolved_value)).dedup),
        (((groupAt n.children idx).map (fun r => r.resolved_value)).dedup).indexOf v = i) ∧
    1 ≤ (toString (groupAt n.children idx).length).length

/-! ## Lemmas about `split_list` -/

theorem split_list_aux_mem {α} (sep : α → Bool) :
    ∀ (l acc : List α), (∀ x ∈ acc, sep x = false) →
      ∀ g ∈ split_list_aux sep l acc, g ≠ [] ∧ ∀ x ∈ g, sep x = false := by
  intro l
  induction l with
  | nil =>
      intro acc hacc g hg
      unfold split_list_aux at hg
      by_cases h : acc.isEmpty
      · simp [h] at hg
      · simp [h] at hg
        subst hg
        exact ⟨by simpa [List.isEmpty_iff] using h, hacc⟩
  | cons x rest ih =>
      intro acc hacc g hg
      unfold split_list_aux at hg
      by_cases hx : sep x = true
      · simp only [hx, if_true] at hg
        by_cases h : acc.isEmpty
        · simp [h] at hg
          exact ih [] (by simp) g hg
        · simp [h] at hg
          rcases hg with rfl | hg
          · exact ⟨by simpa [List.isEmpty_iff] using h, hacc⟩
          · exact ih [] (by simp) g hg
      · simp only [hx, if_false] at hg
        refine ih (acc ++ [x]) ?_ g hg
        intro y hy
        rcases List.mem_append.mp hy with h1 | h1
        · exact hacc y h1
        · simp only [List.mem_singleton] at h1
          subst h1
          simpa using hx

theorem split_list_aux_all_sep {α} (sep : α → Bool) :
    ∀ l : List α, (∀ x ∈ l, sep x = true) → split_list_aux sep l [] = ([] : List (List α)) := by
  intro l
  induction l with
  | nil => intro _; simp [split_list_aux]
  | cons x rest ih =>
      intro h
      have hx := h x (by simp)
      unfold split_list_aux
      simp only [hx, if_true, List.isEmpty_nil]
      exact ih (fun y hy => h y (by simp [hy]))

/-- Resolving a list of `FolderSeparator` elements succeeds and yields only
elements that the split predicate recognises. -/
theorem resolveAll_all_separators (kw : String → Bool) (ds : Dataset) :
    ∀ elements : List DicomPathElement,
      (∀ e ∈ elements, e = DicomPathElement.folderSeparator) →
      ∃ rs, resolveAll kw ds elements = .ok rs ∧ ∀ r ∈ rs, isFolderSepRPE r = true := by
  intro elements
  induction elements with
  | nil => intro _; exact ⟨[], rfl, by simp⟩
  | cons e rest ih =>
      intro h
      have he := h e (by simp)
      subst he
      obtain ⟨rs, hrs, hall⟩ := ih (fun y hy => h y (by simp [hy]))
      refine ⟨⟨some .folderSeparator, osSep⟩ :: rs, ?_, ?_⟩
      · unfold resolveAll
        rw [show DicomPathElement.resolve kw ds .folderSeparator =
              .ok ⟨some .folderSeparator, osSep⟩ from rfl, hrs]
        rfl
      · intro r hr
        rcases List.mem_cons.mp hr with rfl | hr
        · rfl
        · exact hall r hr

/-- C2, counterexample.  The claim states that `generate` splits at *both*
`FolderSeparator` and `RootSlash` boundaries, dropping the separator
elements so that they never appear inside any Unit.  But the split
predicate of the source is the exact class check
`type(x.path_element) == FolderSeparator`, which is false for `RootSlash`:
for the pattern `/a` (elements `[RootSlash, StringLiteral "a"]`) the
resolved `RootSlash` element stays inside the single generated Unit, whose
flattened value `"/a"` contains the separator string. -/
theorem C2_counterexample :
    ¬ (∀ tp : TentativePath,
        generate (fun _ => true) dsEmpty
          [DicomPathElement.rootSlash, DicomPathElement.stringLiteral "a"] = .ok tp →
        ∀ u ∈ tp.units, ∀ r ∈ u.path_elements,
          r.path_element ≠ some DicomPathElement.rootSlash) := by
  intro hclaim
  have h := hclaim
    ⟨[⟨[⟨some .rootSlash, "/"⟩, ⟨some (.stringLiteral "a"), "a"⟩]⟩]⟩
    rfl
    ⟨[⟨some .rootSlash, "/"⟩, ⟨some (.stringLiteral "a"), "a"⟩]⟩
    (by simp)
    ⟨some .rootSlash, "/"⟩
    (by simp)
  exact h rfl

/-- C2, amended: for every pattern and item, `PathGenerator.generate` splits
the resolved element sequence into Units at `FolderSeparator` boundaries
only (a resolved `RootSlash` is kept inside its Unit): the `FolderSeparator`
elements are dropped and never appear inside any Unit, consecutive
separators produce no empty Units, and a pattern consisting only of
`FolderSeparator` elements (or an empty pattern) yields a `TentativePath`
with zero Units. -/
theorem C2_generate_splits_on_folder_separators (kw : String → Bool) (ds : Dataset)
    (elements : List DicomPathElement) (tp : TentativePath)
    (h : generate kw ds elements = .ok tp) :
    (∀ u ∈ tp.units, u.path_elements ≠ [] ∧
      ∀ r ∈ u.path_elements, isFolderSepRPE r = false) ∧
    ((∀ e ∈ elements, e = DicomPathElement.folderSeparator) → tp.units = []) := by
  constructor
  · intro u hu
    unfold generate at h
    cases hres : resolveAll kw ds elements with
    | error err => rw [hres] at h; cases h
    | ok rs =>
        rw [hres] at h
        simp only [Except.map, Except.ok.injEq] at h
        subst h
        simp only [groupUnits, List.mem_map] at hu
        obtain ⟨g, hg, rfl⟩ := hu
        have := split_list_aux_mem isFolderSepRPE rs [] (by simp) g hg
        exact ⟨this.1, this.2⟩
  · intro hall
    obtain ⟨rs, hrs, hsep⟩ := resolveAll_all_separators kw ds elements hall
    unfold generate at h
    rw [hrs] at h
    simp only [Except.map, Except.ok.injEq] at h
    subst h
    simp only [groupUnits, split_list]
    rw [split_list_aux_all_sep isFolderSepRPE rs hsep]
    rfl

/-- C2, witness: the amended theorem applied to the concrete pattern
`/a//b` (separator, literal, separator, separator, literal). -/
theorem C2_witness :
    generate (fun _ => true) dsEmpty
      [DicomPathElement.folderSeparator, DicomPathElement.stringLiteral "a",
       DicomPathElement.folderSeparator, DicomPathElement.folderSeparator,
       DicomPathElement.stringLiteral "b"] =
      .ok ⟨[⟨[⟨some (.stringLiteral "a"), "a"⟩]⟩, ⟨[⟨some (.stringLiteral "b"), "b"⟩]⟩]⟩ ∧
    ((∀ u ∈ (TentativePath.mk
        [⟨[⟨some (.stringLiteral "a"), "a"⟩]⟩, ⟨[⟨some (.stringLiteral "b"), "b"⟩]⟩]).units,
        u.path_elements ≠ [] ∧ ∀ r ∈ u.path_elements, isFolderSepRPE r = false) ∧
      ((∀ e ∈ [DicomPathElement.folderSeparator, DicomPathElement.stringLiteral "a",
               DicomPathElement.folderSeparator, DicomPathElement.folderSeparator,
               DicomPathElement.stringLiteral "b"],
          e = DicomPathElement.folderSeparator) →
        (TentativePath.mk
          [⟨[⟨some (.stringLiteral "a"), "a"⟩]⟩,
           ⟨[⟨some (.stringLiteral "b"), "b"⟩]⟩]).units = [])) :=
  ⟨rfl,
   C2_generate_splits_on_folder_separators (fun _ => true) dsEmpty
     [DicomPathElement.folderSeparator, DicomPathElement.stringLiteral "a",
      DicomPathElement.folderSeparator, DicomPathElement.folderSeparator,
      DicomPathElement.stringLiteral "b"]
     ⟨[⟨[⟨some (.stringLiteral "a"), "a"⟩]⟩, ⟨[⟨some (.stringLiteral "b"), "b"⟩]⟩]⟩
     rfl⟩

/-- C5: the parser rejects `"(StudyInstanceUID)("`, `"(())"`, `"(1045)"` and
`"(x1045001)"` with a parse error, accepts `"(StudyInstanceUID)"`,
`"(0010,0020)/(0008,1030)-(0008,0050)"` and
`"just_some_path/WITH/capitals/12345"`, and rejects any grammatically parsed
pattern containing a mnemonic the external tag dictionary does not know.
The dictionary is opaque; only `StudyInstanceUID ∈ kw` is assumed. -/
theorem C5_parse_accept_reject (kw : String → Bool)
    (h : kw "StudyInstanceUID" = true) : C5Prop kw := by
  refine ⟨rfl, rfl, rfl, rfl, ?_, rfl, rfl, ?_⟩
  · show (if (kw "StudyInstanceUID" && true) = true then
        Except.ok [DicomPathElement.dicomTagName "StudyInstanceUID" false]
      else Except.error ()) =
      Except.ok [DicomPathElement.dicomTagName "StudyInstanceUID" false]
    simp [h]
  · intro s elems n c hgp hmem hkw
    unfold parsePattern
    rw [hgp]
    cases hall : elems.all (fun e =>
        match e with
        | .dicomTagName n _ => kw n
        | _ => true) with
    | true =>
        exfalso
        have := List.all_eq_true.mp hall _ hmem
        simp only at this
        rw [hkw] at this
        exact absurd this (by simp)
    | false => simp [hall]

/-- C5, witness: the theorem applied to the dictionary knowing exactly
`StudyInstanceUID`. -/
theorem C5_witness : kwStudy "StudyInstanceUID" = true ∧ C5Prop kwStudy :=
  ⟨rfl, C5_parse_accept_reject kwStudy rfl⟩

/-- The resolution loop of `generate` catches every
`DicomTagNotFoundException`, so it can never itself end in that error. -/
theorem resolveAll_ne_notFound (kw : String → Bool) (ds : Dataset) :
    ∀ elements : List DicomPathElement,
      resolveAll kw ds elements ≠ .error .notFound := by
  intro elements
  induction elements with
  | nil => intro h; cases h
  | cons e rest ih =>
      intro h
      unfold resolveAll at h
      cases hres : DicomPathElement.resolve kw ds e with
      | ok r =>
          rw [hres] at h
          cases hrec : resolveAll kw ds rest with
          | ok rs => rw [hrec] at h; cases h
          | error err => rw [hrec] at h; simp only [Except.map] at h
                         injection h with h
                         exact ih (by rw [hrec, h])
      | error err =>
          cases err with
          | notFound =>
              rw [hres] at h
              cases hrec : resolveAll kw ds rest with
              | ok rs => rw [hrec] at h; cases h
              | error err2 => rw [hrec] at h; simp only [Except.map] at h
                              injection h with h
                              exact ih (by rw [hrec, h])
          | malformed => rw [hres] at h; cases h

/-- C6: `PathGenerator.generate` never lets the tag-not-found error escape;
any element whose resolution raises it is replaced positionally by the
sentinel `ResolvedPathElement(None, "UNKNOWN")`, whose `count` predicate is
false; and a structurally valid tag element whose tag is absent from the
item's metadata is exactly such an element. -/
theorem C6_tag_not_found_sentinel (kw : String → Bool) (ds : Dataset)
    (elements : List DicomPathElement) :
    generate kw ds elements ≠ .error .notFound ∧
    (∀ i e, elements.get? i = some e →
      DicomPathElement.resolve kw ds e = .error .notFound →
      ∀ rs, resolveAll kw ds elements = .ok rs → rs.get? i = some sentinelRPE) ∧
    sentinelRPE.count = false ∧
    (∀ e : DicomPathElement, e.isVariable = true → e.is_valid kw = true →
      tagAbsent ds e = true →
      DicomPathElement.resolve kw ds e = .error .notFound) := by
  refine ⟨?_, ?_, rfl, ?_⟩
  · intro h
    unfold generate at h
    cases hres : resolveAll kw ds elements with
    | ok rs => rw [hres] at h; cases h
    | error err =>
        rw [hres] at h
        simp only [Except.map] at h
        injection h with h
        exact resolveAll_ne_notFound kw ds elements (by rw [hres, h])
  · intro i
    induction elements generalizing i with
    | nil => intro e he; cases he
    | cons e0 rest ih =>
        intro e he hnf rs hrs
        unfold resolveAll at hrs
        cases hres : DicomPathElement.resolve kw ds e0 with
        | ok r =>
            rw [hres] at hrs
            cases hrec : resolveAll kw ds rest with
            | error err => rw [hrec] at hrs; cases hrs
            | ok rs2 =>
                rw [hrec] at hrs
                simp only [Except.map, Except.ok.injEq] at hrs
                subst hrs
                cases i with
                | zero =>
                    simp only [List.get?] at he
                    injection he with he
                    subst he
                    rw [hres] at hnf
                    cases hnf
                | succ j =>
                    simp only [List.get?] at he ⊢
                    exact ih j e he hnf rs2 hrec
        | error err =>
            cases err with
            | malformed => rw [hres] at hrs; cases hrs
            | notFound =>
                rw [hres] at hrs
                cases hrec : resolveAll kw ds rest with
                | error err2 => rw [hrec] at hrs; cases hrs
                | ok rs2 =>
                    rw [hrec] at hrs
                    simp only [Except.map, Except.ok.injEq] at hrs
                    subst hrs
                    cases i with
                    | zero => rfl
                    | succ j =>
                        simp only [List.get?] at he ⊢
                        exact ih j e he hnf rs2 hrec
  · intro e hvar hval habs
    cases e with
    | stringLiteral s => cases hvar
    | folderSeparator => cases hvar
    | rootSlash => cases hvar
    | dicomTag code c =>
        simp only [DicomPathElement.is_valid] at hval
        simp only [tagAbsent, Option.isNone_iff_eq_none] at habs
        simp [DicomPathElement.resolve, hval, habs]
    | dicomTagName n c =>
        simp only [DicomPathElement.is_valid] at hval
        simp only [tagAbsent, Option.isNone_iff_eq_none] at habs
        simp [DicomPathElement.resolve, hval, habs]

/-- C6, witness: a pattern consisting of the single tag name `PatientID`,
known to the dictionary but absent from the (empty) dataset. -/
theorem C6_witness :
    ([DicomPathElement.dicomTagName "PatientID" false].get? 0 =
      some (DicomPathElement.dicomTagName "PatientID" false)) ∧
    (DicomPathElement.resolve (fun _ => true) dsEmpty
      (DicomPathElement.dicomTagName "PatientID" false) = .error .notFound) ∧
    (resolveAll (fun _ => true) dsEmpty
      [DicomPathElement.dicomTagName "PatientID" false] = .ok [sentinelRPE]) ∧
    [sentinelRPE].get? 0 = some sentinelRPE ∧
    sentinelRPE.count = false :=
  ⟨rfl, rfl, rfl,
   (C6_tag_not_found_sentinel (fun _ => true) dsEmpty
     [DicomPathElement.dicomTagName "PatientID" false]).2.1 0
     (DicomPathElement.dicomTagName "PatientID" false) rfl rfl [sentinelRPE] rfl,
   (C6_tag_not_found_sentinel (fun _ => true) dsEmpty
     [DicomPathElement.dicomTagName "PatientID" false]).2.2.1⟩

/-- Any tag code built by the grammar rule `HEXDIGIT~4 COMMA HEXDIGIT~4`
passes `DicomTag.is_valid`. -/
theorem parseTagBody_code_valid (hc : Bool) (cs : List Char)
    (e : DicomPathElement) (rest : List Char)
    (h : parseTagBody hc cs = some (e, rest)) :
    ∀ code c, e = .dicomTag code c → isValidTagCode code = true := by
  unfold parseTagBody at h
  split at h
  · split at h
    · rename_i hhex
      simp only [Option.some.injEq, Prod.mk.injEq] at h
      obtain ⟨rfl, rfl⟩ := h
      intro code c hcode
      injection hcode with h1 h2
      subst h1
      simp only [Bool.and_eq_true] at hhex
      obtain ⟨⟨⟨⟨⟨⟨⟨hA, hB⟩, hC⟩, hD⟩, hE⟩, hF⟩, hG⟩, hH⟩ := hhex
      simp [isValidTagCode, hA, hB, hC, hD, hE, hF, hG, hH]
    · cases h
  · split at h
    split at h
    · simp only [Option.some.injEq, Prod.mk.injEq] at h
      obtain ⟨rfl, rfl⟩ := h
      intro code c hcode
      cases hcode
    · cases h

/-- Any element produced by one step of the grammar has a valid tag code
when it is a `DicomTag`. -/
theorem parseOneElement_code_valid (cs : List Char)
    (e : DicomPathElement) (rest : List Char)
    (h : parseOneElement cs = some (e, rest)) :
    ∀ code c, e = .dicomTag code c → isValidTagCode code = true := by
  rw [parseOneElement.eq_def] at h
  split at h
  · cases h
  · simp only [Option.some.injEq, Prod.mk.injEq] at h
    obtain ⟨rfl, rfl⟩ := h
    intro code c hcode
    cases hcode
  · simp only [Option.some.injEq, Prod.mk.injEq] at h
    obtain ⟨rfl, rfl⟩ := h
    intro code c hcode
    cases hcode
  · exact parseTagBody_code_valid _ _ _ _ h
  · split at h
    · simp only [Option.some.injEq, Prod.mk.injEq] at h
      obtain ⟨rfl, rfl⟩ := h
      intro code c hcode
      cases hcode
    · cases h

/-- Every element of a successful `element*` parse has a valid tag code
when it is a `DicomTag`. -/
theorem parseAllElements_code_valid :
    ∀ (fuel : Nat) (cs : List Char) (elems : List DicomPathElement),
      parseAllElements fuel cs = some elems →
      ∀ e ∈ elems, ∀ code c, e = .dicomTag code c → isValidTagCode code = true := by
  intro fuel
  induction fuel with
  | zero => intro cs elems h; cases h
  | succ n ih =>
      intro cs elems h
      cases cs with
      | nil =>
          simp only [parseAllElements] at h
          injection h with h
          subst h
          intro e he
          cases he
      | cons c0 cs' =>
          rw [parseAllElements.eq_def] at h
          simp only [] at h
          cases hone : parseOneElement (c0 :: cs') with
          | none => rw [hone] at h; cases h
          | some pr =>
              rw [hone] at h
              simp only [Option.bind_eq_some, Option.map_eq_some'] at h
              obtain ⟨pr2, hpr2, es, hes, rfl⟩ := h
              obtain rfl : pr = pr2 := by injection hpr2
              intro e he
              rcases List.mem_cons.mp he with rfl | he
              · exact parseOneElement_code_valid _ _ _ hone
              · exact ih _ _ hes e he

/-- Every element of a grammatically parsed pattern has a valid tag code
when it is a `DicomTag`. -/
theorem grammarParse_code_valid (s : String) (elems : List DicomPathElement)
    (h : grammarParse s = some elems) :
    ∀ e ∈ elems, ∀ code c, e = .dicomTag code c → isValidTagCode code = true := by
  unfold grammarParse at h
  split at h
  · split at h
    · rename_i heq
      injection h with h
      subst h
      intro e he
      rcases List.mem_cons.mp he with rfl | he
      · intro code c hcode; cases hcode
      · exact parseAllElements_code_valid _ _ _ heq e he
    · split at h
      · rename_i heq
        injection h with h
        subst h
        exact parseAllElements_code_valid _ _ _ heq
      · cases h
  · split at h
    · rename_i heq
      injection h with h
      subst h
      exact parseAllElements_code_valid _ _ _ heq
    · cases h

/-- C9: every element sequence returned by `DicomPathPatternParser.parse`
contains only structurally valid elements — each tag code matches the
4-hex/comma/4-hex check and each tag name is known to the dictionary — so
resolving any parsed element can never raise the general
"malformed/unknown tag" resolution error (only the recoverable
tag-not-found one). -/
theorem C9_parsed_never_malformed (kw : String → Bool) (s : String)
    (elems : List DicomPathElement) (h : parsePattern kw s = .ok elems) :
    ∀ e ∈ elems, e.is_valid kw = true ∧
      ∀ ds : Dataset, DicomPathElement.resolve kw ds e ≠ .error .malformed := by
  cases hg : grammarParse s with
  | none =>
      unfold parsePattern at h
      rw [hg] at h
      cases h
  | some elems2 =>
      have h2 : parsePattern kw s =
          (if (elems2.all (fun e =>
              match e with
              | DicomPathElement.dicomTagName n _ => kw n
              | _ => true)) = true then
            (Except.ok elems2 : Except Unit (List DicomPathElement))
          else Except.error ()) := by
        unfold parsePattern
        rw [hg]
      rw [h2] at h
      cases hall : elems2.all (fun e =>
          match e with
          | DicomPathElement.dicomTagName n _ => kw n
          | _ => true) with
      | false => rw [hall] at h; simp at h
      | true =>
        rw [hall] at h
        simp only [if_pos] at h
        injection h with h
        subst h
        intro e he
        have hvalid : e.is_valid kw = true := by
          cases e with
          | stringLiteral s2 => rfl
          | folderSeparator => rfl
          | rootSlash => rfl
          | dicomTag code c =>
              exact grammarParse_code_valid s elems2 hg _ he code c rfl
          | dicomTagName n c =>
              have := List.all_eq_true.mp hall _ he
              simpa [DicomPathElement.is_valid] using this
        refine ⟨hvalid, ?_⟩
        intro ds hbad
        cases e with
        | stringLiteral s2 => cases hbad
        | folderSeparator => cases hbad
        | rootSlash => cases hbad
        | dicomTag code c =>
            simp only [DicomPathElement.is_valid] at hvalid
            simp only [DicomPathElement.resolve, hvalid, if_true] at hbad
            cases hlook : ds.lookupCode (code.take 4) ((code.drop 5).take 4) with
            | some v => rw [hlook] at hbad; cases hbad
            | none => rw [hlook] at hbad; cases hbad
        | dicomTagName n c =>
            simp only [DicomPathElement.is_valid] at hvalid
            simp only [DicomPathElement.resolve, hvalid, if_true] at hbad
            cases hlook : ds.lookupKeyword n with
            | some v => rw [hlook] at hbad; cases hbad
            | none => rw [hlook] at hbad; cases hbad

/-- C9, witness: the parsed pattern `(0010,0020)/x` with a dictionary
knowing every name. -/
theorem C9_witness :
    (parsePattern (fun _ => true) "(0010,0020)/x" =
      .ok [DicomPathElement.dicomTag "0010,0020" false,
           DicomPathElement.folderSeparator,
           DicomPathElement.stringLiteral "x"]) ∧
    (∀ e ∈ [DicomPathElement.dicomTag "0010,0020" false,
            DicomPathElement.folderSeparator,
            DicomPathElement.stringLiteral "x"],
      e.is_valid (fun _ => true) = true ∧
        ∀ ds : Dataset, DicomPathElement.resolve (fun _ => true) ds e ≠
          .error .malformed) :=
  ⟨rfl, C9_parsed_never_malformed (fun _ => true) "(0010,0020)/x" _ rfl⟩

/-! ## Lemmas about the tree builder -/

theorem children_node (es : List ResolvedPathElement) (cs : List TreeNode) :
    (TreeNode.node es cs).children = cs := rfl

theorem path_elements_node (es : List ResolvedPathElement) (cs : List TreeNode) :
    (TreeNode.node es cs).path_elements = es := rfl

/-- A node's flattened value depends only on its own elements. -/
theorem flatten_congr {t t' : TreeNode} (h : t'.path_elements = t.path_elements) :
    t'.flatten = t.flatten := by
  unfold TreeNode.flatten
  rw [h]

theorem sibDistinct_node (es : List ResolvedPathElement) (cs : List TreeNode) :
    sibDistinct (.node es cs) ↔
      (cs.map TreeNode.flatten).Nodup ∧ ∀ c ∈ cs, sibDistinct c := by
  rw [sibDistinct]
  constructor
  · rintro ⟨h1, h2⟩
    exact ⟨h1, fun c hc => h2 ⟨c, hc⟩ (List.mem_attach _ _)⟩
  · rintro ⟨h1, h2⟩
    exact ⟨h1, fun c _ => h2 c.1 c.2⟩

theorem sibDistinct_nil (es : List ResolvedPathElement) :
    sibDistinct (.node es []) := by
  rw [sibDistinct_node]
  exact ⟨List.nodup_nil, by intro c hc; cases hc⟩

theorem findLastIdx_spec (key : String) :
    ∀ (cs : List TreeNode) (i : Nat), findLastIdx key cs = some i →
      ∃ c, cs[i]? = some c ∧ c.flatten = key := by
  intro cs
  induction cs with
  | nil => intro i h; cases h
  | cons c0 rest ih =>
      intro i h
      unfold findLastIdx at h
      cases hrec : findLastIdx key rest with
      | some j =>
          rw [hrec] at h
          injection h with h
          subst h
          obtain ⟨c, hc, hf⟩ := ih j hrec
          exact ⟨c, by simpa using hc, hf⟩
      | none =>
          rw [hrec] at h
          by_cases hf : c0.flatten = key
          · rw [if_pos hf] at h
            injection h with h
            subst h
            exact ⟨c0, by simp, hf⟩
          · rw [if_neg hf] at h
            cases h

theorem findLastIdx_none (key : String) :
    ∀ cs : List TreeNode, findLastIdx key cs = none →
      ∀ c ∈ cs, c.flatten ≠ key := by
  intro cs
  induction cs with
  | nil => intro _ c hc; cases hc
  | cons c0 rest ih =>
      intro h c hc
      unfold findLastIdx at h
      cases hrec : findLastIdx key rest with
      | some j => rw [hrec] at h; cases h
      | none =>
          rw [hrec] at h
          by_cases hf : c0.flatten = key
          · rw [if_pos hf] at h; cases h
          · rcases List.mem_cons.mp hc with rfl | hc
            · exact hf
            · exact ih hrec c hc

/-- Setting an index back to the element already there leaves a list
unchanged. -/
theorem set_eq_self_of_getElem? {α : Type _} :
    ∀ (l : List α) (i : Nat) (a : α), l[i]? = some a → l.set i a = l := by
  intro l
  induction l with
  | nil => intro i a h; cases h
  | cons x rest ih =>
      intro i a h
      cases i with
      | zero =>
          simp only [List.getElem?_cons_zero, Option.some.injEq] at h
          subst h
          rfl
      | succ j =>
          simp only [List.getElem?_cons_succ] at h
          simp only [List.set_cons_succ]
          rw [ih j a h]

theorem getElem?_set_self' {α : Type _} :
    ∀ (l : List α) (i : Nat) (a : α), i < l.length → (l.set i a)[i]? = some a := by
  intro l
  induction l with
  | nil => intro i a h; cases h
  | cons x rest ih =>
      intro i a h
      cases i with
      | zero => simp
      | succ j =>
          simp only [List.set_cons_succ, List.getElem?_cons_succ]
          exact ih j a (by simpa using h)

theorem getElem?_set_ne' {α : Type _} :
    ∀ (l : List α) (i j : Nat) (a : α), i ≠ j → (l.set i a)[j]? = l[j]? := by
  intro l
  induction l with
  | nil => intro i j a _; simp
  | cons x rest ih =>
      intro i j a hne
      cases i with
      | zero =>
          cases j with
          | zero => exact absurd rfl hne
          | succ j2 => simp
      | succ i2 =>
          cases j with
          | zero => simp
          | succ j2 =>
              simp only [List.set_cons_succ, List.getElem?_cons_succ]
              exact ih i2 j2 a (fun hh => hne (by rw [hh]))

theorem map_set' {α β : Type _} (f : α → β) :
    ∀ (l : List α) (i : Nat) (a : α), (l.set i a).map f = (l.map f).set i (f a) := by
  intro l
  induction l with
  | nil => intro i a; rfl
  | cons x rest ih =>
      intro i a
      cases i with
      | zero => rfl
      | succ j => simp only [List.set_cons_succ, List.map_cons]; rw [ih j a]

theorem mem_of_getElem?' {α : Type _} :
    ∀ (l : List α) (i : Nat) (a : α), l[i]? = some a → a ∈ l := by
  intro l
  induction l with
  | nil => intro i a h; cases h
  | cons x rest ih =>
      intro i a h
      cases i with
      | zero =>
          simp only [List.getElem?_cons_zero, Option.some.injEq] at h
          subst h
          exact List.mem_cons_self x rest
      | succ j =>
          simp only [List.getElem?_cons_succ] at h
          exact List.mem_cons_of_mem x (ih j a h)

theorem mem_set' {α : Type _} :
    ∀ (l : List α) (i : Nat) (a b : α), b ∈ l.set i a → b ∈ l ∨ b = a := by
  intro l
  induction l with
  | nil => intro i a b h; cases h
  | cons x rest ih =>
      intro i a b h
      cases i with
      | zero =>
          rcases List.mem_cons.mp h with rfl | h
          · exact Or.inr rfl
          · exact Or.inl (List.mem_cons_of_mem x h)
      | succ j =>
          rcases List.mem_cons.mp h with rfl | h
          · exact Or.inl (List.mem_cons_self _ _)
          · rcases ih j a b h with h2 | h2
            · exact Or.inl (List.mem_cons_of_mem x h2)
            · exact Or.inr h2

theorem nodup_concat' {α : Type _} (l : List α) (a : α)
    (h1 : l.Nodup) (h2 : a ∉ l) : (l ++ [a]).Nodup := by
  simp [List.nodup_append, h1, h2]

theorem getElem?_append_left' {α : Type _} :
    ∀ (l l' : List α) (j : Nat), j < l.length → (l ++ l')[j]? = l[j]? := by
  intro l
  induction l with
  | nil => intro l' j h; cases h
  | cons x rest ih =>
      intro l' j h
      cases j with
      | zero => simp
      | succ j2 =>
          simp only [List.cons_append, List.getElem?_cons_succ]
          exact ih l' j2 (by simpa using h)

/-- The main specification of `TreeNode.add`: it preserves the node's own
elements, the returned index list addresses a chain whose flattened values
are exactly the units' flattened values in order, every pre-existing chain
survives with unchanged flattened values, and the sibling-deduplication
invariant is preserved. -/
theorem add_spec :
    ∀ (us : List PathUnit) (t t' : TreeNode) (ixs : List Nat),
      TreeNode.add t us = some (t', ixs) →
      t'.path_elements = t.path_elements ∧
      (∃ ns, t'.chain ixs = some ns ∧
        ns.map TreeNode.flatten = us.map PathUnit.flatten) ∧
      (∀ ixs0 ns0, t.chain ixs0 = some ns0 →
        ∃ ns1, t'.chain ixs0 = some ns1 ∧
          ns1.map TreeNode.flatten = ns0.map TreeNode.flatten) ∧
      (sibDistinct t → sibDistinct t') := by
  intro us
  induction us with
  | nil =>
      intro t t' ixs h
      cases t
      cases h
  | cons u rest ih =>
      intro t t' ixs h
      obtain ⟨es, cs⟩ := t
      unfold TreeNode.add at h
      cases hfind : findLastIdx u.flatten cs with
      | some i =>
          rw [hfind] at h
          obtain ⟨c, hc, hcf⟩ := findLastIdx_spec u.flatten cs i hfind
          have hlen : i < cs.length := by
            rcases List.getElem?_eq_some.mp hc with ⟨hh, _⟩
            exact hh
          cases hre : rest.isEmpty with
          | true =>
              have hrnil : rest = [] := List.isEmpty_iff.mp hre
              rw [hre] at h
              simp only [if_true] at h
              simp only [Option.some.injEq, Prod.mk.injEq] at h
              obtain ⟨rfl, rfl⟩ := h
              refine ⟨rfl, ⟨[c], ?_, ?_⟩, ?_, fun hsd => hsd⟩
              · simp only [TreeNode.chain, children_node, hc, Option.map_some']
              · subst hrnil
                simp [hcf]
              · intro ixs0 ns0 h0
                exact ⟨ns0, h0, rfl⟩
          | false =>
              rw [hre] at h
              simp only [Bool.false_eq_true, if_false] at h
              rw [hc] at h
              have h2 : Option.map
                  (fun pr => (TreeNode.node es (cs.set i pr.1), i :: pr.2))
                  (TreeNode.add c rest) = some (t', ixs) := h
              cases hadd : TreeNode.add c rest with
              | none => rw [hadd] at h2; cases h2
              | some pr =>
                  obtain ⟨c', ixs'⟩ := pr
                  rw [hadd] at h2
                  simp only [Option.map_some', Option.some.injEq, Prod.mk.injEq] at h2
                  obtain ⟨rfl, rfl⟩ := h2
                  obtain ⟨hpe, ⟨ns, hns, hflat⟩, hpres, hdist⟩ := ih c c' ixs' hadd
                  have hc'f : c'.flatten = c.flatten := flatten_congr hpe
                  have hset : (cs.set i c')[i]? = some c' := getElem?_set_self' cs i c' hlen
                  refine ⟨rfl, ⟨c' :: ns, ?_, ?_⟩, ?_, ?_⟩
                  · simp only [TreeNode.chain, children_node, hset, hns, Option.map_some']
                  · simp only [List.map_cons]
                    rw [hc'f, hcf, hflat]
                  · intro ixs0 ns0 h0
                    cases ixs0 with
                    | nil =>
                        simp only [TreeNode.chain, Option.some.injEq] at h0
                        subst h0
                        exact ⟨[], rfl, rfl⟩
                    | cons j rest0 =>
                        have h0' : (match cs[j]? with
                            | some c2 => (TreeNode.chain c2 rest0).map (fun ns2 => c2 :: ns2)
                            | none => none) = some ns0 := h0
                        cases hcj : cs[j]? with
                        | none => rw [hcj] at h0'; cases h0'
                        | some cj =>
                            rw [hcj] at h0'
                            have hred : Option.map (fun ns2 => cj :: ns2)
                                (TreeNode.chain cj rest0) = some ns0 := h0'
                            cases hch : TreeNode.chain cj rest0 with
                            | none => rw [hch] at hred; cases hred
                            | some ns0' =>
                                rw [hch] at hred
                                simp only [Option.map_some', Option.some.injEq] at hred
                                subst hred
                                by_cases hij : j = i
                                · subst hij
                                  have hceq : cj = c := by
                                    rw [hc] at hcj
                                    injection hcj with hcj
                                    exact hcj.symm
                                  subst hceq
                                  obtain ⟨ns1', hns1', hflat1'⟩ := hpres rest0 ns0' hch
                                  refine ⟨c' :: ns1', ?_, ?_⟩
                                  · simp only [TreeNode.chain, children_node,
                                      getElem?_set_self' cs j c' hlen, hns1',
                                      Option.map_some']
                                  · simp only [List.map_cons]
                                    rw [hc'f, hflat1']
                                · refine ⟨cj :: ns0', ?_, rfl⟩
                                  simp only [TreeNode.chain, children_node,
                                    getElem?_set_ne' cs i j c' (fun hh => hij hh.symm),
                                    hcj, hch, Option.map_some']
                  · intro hsd
                    rw [sibDistinct_node] at hsd ⊢
                    obtain ⟨hnd, hall⟩ := hsd
                    constructor
                    · rw [map_set' TreeNode.flatten cs i c', hc'f,
                          set_eq_self_of_getElem? (cs.map TreeNode.flatten) i c.flatten
                            (by rw [List.getElem?_map, hc]; rfl)]
                      exact hnd
                    · intro c2 hc2
                      rcases mem_set' cs i c' c2 hc2 with h2 | h2
                      · exact hall c2 h2
                      · subst h2
                        exact hdist (hall c (mem_of_getElem?' cs i c hc))
      | none =>
          rw [hfind] at h
          have hnotmem := findLastIdx_none u.flatten cs hfind
          cases hre : rest.isEmpty with
          | true =>
              have hrnil : rest = [] := List.isEmpty_iff.mp hre
              rw [hre] at h
              simp only [if_true] at h
              simp only [Option.some.injEq, Prod.mk.injEq] at h
              obtain ⟨rfl, rfl⟩ := h
              have hnew : (cs ++ [TreeNode.node u.path_elements []])[cs.length]? =
                  some (TreeNode.node u.path_elements []) := by
                rw [List.getElem?_concat_length]
              refine ⟨rfl, ⟨[TreeNode.node u.path_elements []], ?_, ?_⟩, ?_, ?_⟩
              · simp only [TreeNode.chain, children_node, hnew, Option.map_some']
              · subst hrnil
                rfl
              · intro ixs0 ns0 h0
                cases ixs0 with
                | nil =>
                    simp only [TreeNode.chain, Option.some.injEq] at h0
                    subst h0
                    exact ⟨[], rfl, rfl⟩
                | cons j rest0 =>
                    have h0' : (match cs[j]? with
                        | some c2 => (TreeNode.chain c2 rest0).map (fun ns2 => c2 :: ns2)
                        | none => none) = some ns0 := h0
                    cases hcj : cs[j]? with
                    | none => rw [hcj] at h0'; cases h0'
                    | some cj =>
                        have hjlen : j < cs.length := by
                          rcases List.getElem?_eq_some.mp hcj with ⟨hh, _⟩
                          exact hh
                        refine ⟨ns0, ?_, rfl⟩
                        rw [hcj] at h0'
                        have happ : (cs ++ [TreeNode.node u.path_elements []])[j]? =
                            some cj := by
                          rw [getElem?_append_left' cs _ j hjlen, hcj]
                        simp only [TreeNode.chain, children_node, happ]
                        exact h0'
              · intro hsd
                rw [sibDistinct_node] at hsd ⊢
                obtain ⟨hnd, hall⟩ := hsd
                constructor
                · rw [List.map_append]
                  exact nodup_concat' _ _ hnd (by
                    intro hmem
                    simp only [List.mem_map] at hmem
                    obtain ⟨c2, hc2, hfc2⟩ := hmem
                    exact hnotmem c2 hc2 hfc2)
                · intro c2 hc2
                  rcases List.mem_append.mp hc2 with h2 | h2
                  · exact hall c2 h2
                  · simp only [List.mem_singleton] at h2
                    subst h2
                    exact sibDistinct_nil _
          | false =>
              rw [hre] at h
              simp only [Bool.false_eq_true, if_false] at h
              cases hadd : TreeNode.add (TreeNode.node u.path_elements []) rest with
              | none => rw [hadd] at h; cases h
              | some pr =>
                  obtain ⟨c', ixs'⟩ := pr
                  rw [hadd] at h
                  simp only [Option.map_some', Option.some.injEq, Prod.mk.injEq] at h
                  obtain ⟨rfl, rfl⟩ := h
                  obtain ⟨hpe, ⟨ns, hns, hflat⟩, hpres, hdist⟩ := ih _ c' ixs' hadd
                  have hc'f : c'.flatten = u.flatten := by
                    have : (TreeNode.node u.path_elements []).flatten = u.flatten := rfl
                    rw [← this]
                    exact flatten_congr hpe
                  have hnew : (cs ++ [c'])[cs.length]? = some c' := by
                    rw [List.getElem?_concat_length]
                  refine ⟨rfl, ⟨c' :: ns, ?_, ?_⟩, ?_, ?_⟩
                  · simp only [TreeNode.chain, children_node, hnew, hns, Option.map_some']
                  · simp only [List.map_cons]
                    rw [hc'f, hflat]
                  · intro ixs0 ns0 h0
                    cases ixs0 with
                    | nil =>
                        simp only [TreeNode.chain, Option.some.injEq] at h0
                        subst h0
                        exact ⟨[], rfl, rfl⟩
                    | cons j rest0 =>
                        have h0' : (match cs[j]? with
                            | some c2 => (TreeNode.chain c2 rest0).map (fun ns2 => c2 :: ns2)
                            | none => none) = some ns0 := h0
                        cases hcj : cs[j]? with
                        | none => rw [hcj] at h0'; cases h0'
                        | some cj =>
                            have hjlen : j < cs.length := by
                              rcases List.getElem?_eq_some.mp hcj with ⟨hh, _⟩
                              exact hh
                            refine ⟨ns0, ?_, rfl⟩
                            rw [hcj] at h0'
                            have happ : (cs ++ [c'])[j]? = some cj := by
                              rw [getElem?_append_left' cs _ j hjlen, hcj]
                            simp only [TreeNode.chain, children_node, happ]
                            exact h0'
                  · intro hsd
                    rw [sibDistinct_node] at hsd ⊢
                    obtain ⟨hnd, hall⟩ := hsd
                    constructor
                    · rw [List.map_append]
                      exact nodup_concat' _ _ hnd (by
                        intro hmem
                        simp only [List.mem_map] at hmem
                        obtain ⟨c2, hc2, hfc2⟩ := hmem
                        exact hnotmem c2 hc2 (by rw [← hc'f, hfc2]))
                    · intro c2 hc2
                      rcases List.mem_append.mp hc2 with h2 | h2
                      · exact hall c2 h2
                      · simp only [List.mem_singleton] at h2
                        subst h2
                        exact hdist (sibDistinct_nil _)

theorem chain_nil (t : TreeNode) : t.chain [] = some [] := rfl

theorem chain_cons_some {t : TreeNode} {i : Nat} {c : TreeNode}
    (h : t.children[i]? = some c) (rest : List Nat) :
    t.chain (i :: rest) = (TreeNode.chain c rest).map (fun ns => c :: ns) := by
  have heq : t.chain (i :: rest) = match t.children[i]? with
      | some c2 => (TreeNode.chain c2 rest).map (fun ns => c2 :: ns)
      | none => none := rfl
  rw [heq, h]

theorem chain_cons_none {t : TreeNode} {i : Nat}
    (h : t.children[i]? = none) (rest : List Nat) :
    t.chain (i :: rest) = none := by
  have heq : t.chain (i :: rest) = match t.children[i]? with
      | some c2 => (TreeNode.chain c2 rest).map (fun ns => c2 :: ns)
      | none => none := rfl
  rw [heq, h]

theorem sibDistinct_children {t : TreeNode} (h : sibDistinct t) :
    (t.children.map TreeNode.flatten).Nodup ∧ ∀ c ∈ t.children, sibDistinct c := by
  obtain ⟨es, cs⟩ := t
  exact (sibDistinct_node es cs).mp h

/-- `TreeNode.add` succeeds on every nonempty unit list. -/
theorem add_isSome :
    ∀ (us : List PathUnit) (t : TreeNode), us ≠ [] →
      (TreeNode.add t us).isSome = true := by
  intro us
  induction us with
  | nil => intro t h; exact absurd rfl h
  | cons u rest ih =>
      intro t _
      obtain ⟨es, cs⟩ := t
      cases hadd : TreeNode.add (TreeNode.node es cs) (u :: rest) with
      | some pr => simp
      | none =>
          exfalso
          unfold TreeNode.add at hadd
          cases hfind : findLastIdx u.flatten cs with
          | some i =>
              rw [hfind] at hadd
              obtain ⟨c, hc, _⟩ := findLastIdx_spec u.flatten cs i hfind
              cases hre : rest.isEmpty with
              | true => rw [hre] at hadd; simp at hadd
              | false =>
                  rw [hre] at hadd
                  simp only [Bool.false_eq_true, if_false] at hadd
                  rw [hc] at hadd
                  have hred : Option.map
                      (fun pr => (TreeNode.node es (cs.set i pr.1), i :: pr.2))
                      (TreeNode.add c rest) = none := hadd
                  have hne : rest ≠ [] := by
                    intro hh
                    rw [hh] at hre
                    cases hre
                  have hs := ih c hne
                  cases hadd2 : TreeNode.add c rest with
                  | none => rw [hadd2] at hs; cases hs
                  | some pr2 => rw [hadd2] at hred; cases hred
          | none =>
              rw [hfind] at hadd
              cases hre : rest.isEmpty with
              | true => rw [hre] at hadd; simp at hadd
              | false =>
                  rw [hre] at hadd
                  simp only [Bool.false_eq_true, if_false] at hadd
                  have hne : rest ≠ [] := by
                    intro hh
                    rw [hh] at hre
                    cases hre
                  have hs := ih (TreeNode.node u.path_elements []) hne
                  cases hadd2 : TreeNode.add (TreeNode.node u.path_elements []) rest with
                  | none => rw [hadd2] at hs; cases hs
                  | some pr2 => rw [hadd2] at hadd; cases hadd

/-- A prefix of a valid chain is a valid chain on the node-list prefix. -/
theorem chain_take :
    ∀ (ixs : List Nat) (t : TreeNode) (ns : List TreeNode),
      t.chain ixs = some ns → ∀ k, t.chain (ixs.take k) = some (ns.take k) := by
  intro ixs
  induction ixs with
  | nil =>
      intro t ns h k
      rw [chain_nil] at h
      injection h with h
      subst h
      simp [chain_nil]
  | cons i rest ih =>
      intro t ns h k
      cases hci : t.children[i]? with
      | none => rw [chain_cons_none hci] at h; cases h
      | some c =>
          rw [chain_cons_some hci] at h
          cases hch : TreeNode.chain c rest with
          | none => rw [hch] at h; cases h
          | some ns' =>
              rw [hch] at h
              simp only [Option.map_some', Option.some.injEq] at h
              subst h
              cases k with
              | zero => simp [chain_nil]
              | succ k2 =>
                  simp only [List.take_succ_cons]
                  rw [chain_cons_some hci, ih c ns' hch k2]
                  rfl

/-- In a sibling-distinct tree, a chain is uniquely determined by its
sequence of flattened values. -/
theorem chain_det :
    ∀ (ixs1 : List Nat) (t : TreeNode) (ixs2 : List Nat) (ns1 ns2 : List TreeNode),
      sibDistinct t → t.chain ixs1 = some ns1 → t.chain ixs2 = some ns2 →
      ns1.map TreeNode.flatten = ns2.map TreeNode.flatten → ixs1 = ixs2 := by
  intro ixs1
  induction ixs1 with
  | nil =>
      intro t ixs2 ns1 ns2 _ h1 h2 hmap
      rw [chain_nil] at h1
      injection h1 with h1
      subst h1
      cases ixs2 with
      | nil => rfl
      | cons j r2 =>
          exfalso
          cases hcj : t.children[j]? with
          | none => rw [chain_cons_none hcj] at h2; cases h2
          | some c =>
              rw [chain_cons_some hcj] at h2
              cases hch : TreeNode.chain c r2 with
              | none => rw [hch] at h2; cases h2
              | some ns' =>
                  rw [hch] at h2
                  simp only [Option.map_some', Option.some.injEq] at h2
                  subst h2
                  simp at hmap
  | cons i r1 ih =>
      intro t ixs2 ns1 ns2 hsd h1 h2 hmap
      cases hci : t.children[i]? with
      | none => rw [chain_cons_none hci] at h1; cases h1
      | some c1 =>
          rw [chain_cons_some hci] at h1
          cases hch1 : TreeNode.chain c1 r1 with
          | none => rw [hch1] at h1; cases h1
          | some ns1' =>
              rw [hch1] at h1
              simp only [Option.map_some', Option.some.injEq] at h1
              subst h1
              cases ixs2 with
              | nil =>
                  rw [chain_nil] at h2
                  injection h2 with h2
                  subst h2
                  simp at hmap
              | cons j r2 =>
                  cases hcj : t.children[j]? with
                  | none => rw [chain_cons_none hcj] at h2; cases h2
                  | some c2 =>
                      rw [chain_cons_some hcj] at h2
                      cases hch2 : TreeNode.chain c2 r2 with
                      | none => rw [hch2] at h2; cases h2
                      | some ns2' =>
                          rw [hch2] at h2
                          simp only [Option.map_some', Option.some.injEq] at h2
                          subst h2
                          simp only [List.map_cons, List.cons.injEq] at hmap
                          obtain ⟨hflat, hmap'⟩ := hmap
                          obtain ⟨hnd, hall⟩ := sibDistinct_children hsd
                          have hlen : i < t.children.length := by
                            rcases List.getElem?_eq_some.mp hci with ⟨hh, _⟩
                            exact hh
                          have hij : i = j := by
                            apply List.getElem?_inj
                              (by simpa using hlen) hnd
                            rw [List.getElem?_map, List.getElem?_map, hci, hcj]
                            simp [hflat]
                          subst hij
                          have hcc : c1 = c2 := by
                            rw [hci] at hcj
                            injection hcj
                          subst hcc
                          rw [ih c1 r2 ns1' ns2'
                            (hall c1 (mem_of_getElem?' _ _ _ hci)) hch1 hch2 hmap']

theorem chain_length :
    ∀ (ixs : List Nat) (t : TreeNode) (ns : List TreeNode),
      t.chain ixs = some ns → ns.length = ixs.length := by
  intro ixs
  induction ixs with
  | nil =>
      intro t ns h
      rw [chain_nil] at h
      injection h with h
      subst h
      rfl
  | cons i rest ih =>
      intro t ns h
      cases hci : t.children[i]? with
      | none => rw [chain_cons_none hci] at h; cases h
      | some c =>
          rw [chain_cons_some hci] at h
          cases hch : TreeNode.chain c rest with
          | none => rw [hch] at h; cases h
          | some ns' =>
              rw [hch] at h
              simp only [Option.map_some', Option.some.injEq] at h
              subst h
              simp [ih c ns' hch]

theorem addAll_cons (t : TreeNode) (org : String) (p : TentativePath)
    (rest : List (String × TentativePath)) :
    addAll t ((org, p) :: rest) = (t.add p.units).bind (fun pr =>
      (addAll pr.1 rest).map (fun pr2 => (pr2.1, (org, pr.2) :: pr2.2))) := rfl

theorem forall2_getElem? {α β : Type _} {R : α → β → Prop} :
    ∀ {l1 : List α} {l2 : List β}, List.Forall₂ R l1 l2 →
      ∀ (j : Nat) (a : α), l1[j]? = some a → ∃ b, l2[j]? = some b ∧ R a b := by
  intro l1 l2 h
  induction h with
  | nil => intro j a ha; cases ha
  | cons hr _ ih =>
      intro j a ha
      cases j with
      | zero =>
          simp only [List.getElem?_cons_zero, Option.some.injEq] at ha
          subst ha
          exact ⟨_, by simp, hr⟩
      | succ j2 =>
          simp only [List.getElem?_cons_succ] at ha ⊢
          exact ih j2 a ha

/-- The loop of `as_tree`: folding `add` over all items from a
sibling-distinct tree succeeds (given nonempty paths), preserves the
invariant and existing chains, and records for every item an index chain
matching its units' flattened values in the final tree. -/
theorem addAll_spec :
    ∀ (m : List (String × TentativePath)) (t : TreeNode),
      sibDistinct t → (∀ pr ∈ m, pr.2.units ≠ []) →
      ∃ tf ds, addAll t m = some (tf, ds) ∧
        sibDistinct tf ∧
        (∀ ixs0 ns0, t.chain ixs0 = some ns0 →
          ∃ ns1, tf.chain ixs0 = some ns1 ∧
            ns1.map TreeNode.flatten = ns0.map TreeNode.flatten) ∧
        List.Forall₂ (fun (dpr : String × List Nat) (mpr : String × TentativePath) =>
          dpr.1 = mpr.1 ∧ ∃ ns, tf.chain dpr.2 = some ns ∧
            ns.map TreeNode.flatten = mpr.2.units.map PathUnit.flatten) ds m := by
  intro m
  induction m with
  | nil =>
      intro t hsd _
      exact ⟨t, [], rfl, hsd, fun ixs0 ns0 h0 => ⟨ns0, h0, rfl⟩, List.Forall₂.nil⟩
  | cons pr0 rest ih =>
      intro t hsd hne
      obtain ⟨org, p⟩ := pr0
      have hu : p.units ≠ [] := hne (org, p) (by simp)
      have hsome := add_isSome p.units t hu
      cases hadd : TreeNode.add t p.units with
      | none => rw [hadd] at hsome; cases hsome
      | some pr1 =>
          obtain ⟨t1, ixs1⟩ := pr1
          obtain ⟨hpe, ⟨ns, hns, hflat⟩, hpres, hdist⟩ := add_spec p.units t t1 ixs1 hadd
          obtain ⟨tf, ds, haddAll, hsdf, hpresf, hfa⟩ :=
            ih t1 (hdist hsd) (fun q hq => hne q (by simp [hq]))
          refine ⟨tf, (org, ixs1) :: ds, ?_, hsdf, ?_, ?_⟩
          · rw [addAll_cons, hadd]
            show (addAll t1 rest).map (fun pr2 => (pr2.1, (org, ixs1) :: pr2.2)) =
              some (tf, (org, ixs1) :: ds)
            rw [haddAll]
            rfl
          · intro ixs0 ns0 h0
            obtain ⟨ns1, hns1, hflat1⟩ := hpres ixs0 ns0 h0
            obtain ⟨ns2, hns2, hflat2⟩ := hpresf ixs0 ns1 hns1
            exact ⟨ns2, hns2, by rw [hflat2, hflat1]⟩
          · refine List.Forall₂.cons ⟨rfl, ?_⟩ hfa
            obtain ⟨ns2, hns2, hflat2⟩ := hpresf ixs1 ns hns
            exact ⟨ns2, hns2, by rw [hflat2, hflat]⟩

/-- C3, counterexample.  The claim quantifies over *any* set of items and
*any* pattern, but for a pattern consisting only of separators every item's
tentative path has zero units, and `TreeNode.add` then executes
`path_in.pop(0)` on an empty list — an uncaught `IndexError` (`none` here) —
so no tree-backed mapping is produced at all, while the straight mapping
flattens fine (to the empty string). -/
theorem C3_counterexample :
    ¬ ∀ (m : List (String × TentativePath)), ∃ tm,
        as_tree m = some tm ∧ treeFlatDict tm = some (straightFlatDict m) := by
  intro hclaim
  obtain ⟨tm, htm, _⟩ := hclaim [("a", TentativePath.mk [])]
  exact Option.noConfusion htm

/-- C3, amended: for any set of items and any pattern under which every
item's tentative path has at least one unit, building the tree succeeds and
flattening the tree-backed mapping yields exactly the same original-path to
destination-string dictionary as flattening the straight mapping directly,
item for item.  (In this pure embedding the tree is built from the given
paths without mutating them, which is the behaviour the source obtains by
deep-copying each tentative path before the destructive insertion; the
straight mapping's own flat dictionary is therefore unchanged by
construction.) -/
theorem C3_tree_flat_agreement (m : List (String × TentativePath))
    (hne : ∀ pr ∈ m, pr.2.units ≠ []) : C3Prop m := by
  obtain ⟨tf, ds, haddAll, _, _, hfa⟩ :=
    addAll_spec m (.node [] []) (sibDistinct_nil []) hne
  refine ⟨⟨tf, ds⟩, ?_, ?_⟩
  · unfold as_tree
    rw [haddAll]
    rfl
  · unfold treeFlatDict straightFlatDict
    simp only []
    clear haddAll hne
    induction hfa with
    | nil => rfl
    | cons hr hrest ihfa =>
        rename_i dpr mpr ds2 m2
        obtain ⟨hfst, ns, hns, hflat⟩ := hr
        simp only [List.mapM_cons, List.map_cons]
        have hfc : flattenChain tf dpr.2 = some (TentativePath.flatten mpr.2) := by
          unfold flattenChain
          rw [hns]
          simp only [Option.map_some', Option.some.injEq]
          unfold TentativePath.flatten
          rw [hflat]
        rw [hfc, ihfa]
        simp [hfst]

/-- C3, witness: the amended theorem applied to the concrete two-item
mapping `wMap`. -/
theorem C3_witness : (∀ pr ∈ wMap, pr.2.units ≠ []) ∧ C3Prop wMap :=
  ⟨by decide, C3_tree_flat_agreement wMap (by decide)⟩

/-- C4: after any sequence of `TreeNode.add` insertions (from the empty
root, with nonempty paths), every node's flattened value is unique among its
immediate siblings; each item's recorded terminal chain consumes its units
in strict left-to-right order (one node per unit, flattened values matching
positionally); two items agreeing on their first `k` flattened units share
the identical chain of `k` nodes from the root; and `add` into any
sibling-distinct tree returns the existing terminal chain when a chain with
the same flattened values already exists (node reuse). -/
theorem C4_tree_invariants (m : List (String × TentativePath))
    (hne : ∀ pr ∈ m, pr.2.units ≠ []) (tm : PathTreeMapping)
    (h : as_tree m = some tm) :
    C4Prop m tm ∧
    (∀ (t : TreeNode) (us : List PathUnit) (t2 : TreeNode) (ixs : List Nat),
      sibDistinct t → TreeNode.add t us = some (t2, ixs) →
      ∀ (ixs0 : List Nat) (ns0 : List TreeNode), t.chain ixs0 = some ns0 →
        ns0.map TreeNode.flatten = us.map PathUnit.flatten → ixs = ixs0) := by
  constructor
  · obtain ⟨tf, ds, haddAll, hsdf, _, hfa⟩ :=
      addAll_spec m (.node [] []) (sibDistinct_nil []) hne
    have htm : tm = ⟨tf, ds⟩ := by
      unfold as_tree at h
      rw [haddAll] at h
      simp only [Option.map_some', Option.some.injEq] at h
      exact h.symm
    subst htm
    refine ⟨hsdf, ?_, ?_⟩
    · intro j org ixs hj
      obtain ⟨b, hb, hR⟩ := forall2_getElem? hfa j (org, ixs) hj
      obtain ⟨hfst, ns, hns, hflat⟩ := hR
      have hbeq : b = (org, b.2) := by
        obtain ⟨b1, b2⟩ := b
        simp only at hfst
        rw [← hfst]
      refine ⟨b.2, ns, ?_, ?_, hns, hflat⟩
      · rw [hb, hbeq]
      · have h1 := chain_length ixs tf ns hns
        have h2 : ns.length = b.2.units.length := by
          have := congrArg List.length hflat
          simpa using this
        omega
    · intro j1 j2 org1 org2 ixs1 ixs2 p1 p2 k h1 h2 hm1 hm2 hpre
      obtain ⟨b1, hb1, hR1⟩ := forall2_getElem? hfa j1 (org1, ixs1) h1
      obtain ⟨hfst1, ns1, hns1, hflat1⟩ := hR1
      obtain ⟨b2, hb2, hR2⟩ := forall2_getElem? hfa j2 (org2, ixs2) h2
      obtain ⟨hfst2, ns2, hns2, hflat2⟩ := hR2
      have hbe1 : b1 = (org1, p1) := by
        rw [hm1] at hb1
        injection hb1 with hb1
        exact hb1.symm
      have hbe2 : b2 = (org2, p2) := by
        rw [hm2] at hb2
        injection hb2 with hb2
        exact hb2.symm
      subst hbe1
      subst hbe2
      have ht1 := chain_take ixs1 tf ns1 hns1 k
      have ht2 := chain_take ixs2 tf ns2 hns2 k
      refine chain_det (ixs1.take k) tf (ixs2.take k) _ _ hsdf ht1 ht2 ?_
      rw [List.map_take, List.map_take, hflat1, hflat2]
      exact hpre
  · intro t us t2 ixs hsd hadd ixs0 ns0 h0 hflat0
    obtain ⟨_, ⟨ns, hns, hflat⟩, hpres, hdist⟩ := add_spec us t t2 ixs hadd
    obtain ⟨ns1, hns1, hflat1⟩ := hpres ixs0 ns0 h0
    exact chain_det ixs t2 ixs0 ns ns1 (hdist hsd) hns hns1
      (by rw [hflat, ← hflat0, hflat1])

/-- C4, witness: the two-item mapping `wMap`, whose items share their first
unit `a` and are recorded at the index chains `[0, 0]` and `[0, 1]`. -/
theorem C4_witness :
    (∀ pr ∈ wMap, pr.2.units ≠ []) ∧ as_tree wMap = some wTm ∧ C4Prop wMap wTm :=
  ⟨by decide, rfl, (C4_tree_invariants wMap (by decide) wTm rfl).1⟩

/-! ## Lemmas about the counting pass -/

theorem applyCountAux_node (es es0 : List ResolvedPathElement) (cs : List TreeNode) :
    applyCountAux es (.node es0 cs) =
      .node es (cs.map (fun c => applyCountAux (rewriteElems cs c) c)) := by
  rw [applyCountAux]
  rw [List.attach_map_val cs (fun c => applyCountAux (rewriteElems cs c) c)]

theorem applyCountAux_path_elements (es : List ResolvedPathElement) (t : TreeNode) :
    (applyCountAux es t).path_elements = es := by
  obtain ⟨es0, cs⟩ := t
  rw [applyCountAux_node]
  rfl

theorem applyCountAux_children (es : List ResolvedPathElement) (t : TreeNode)
    (j : Nat) :
    (applyCountAux es t).children[j]? =
      (t.children[j]?).map (fun c => applyCountAux (rewriteElems t.children c) c) := by
  obtain ⟨es0, cs⟩ := t
  rw [applyCountAux_node]
  show (cs.map (fun c => applyCountAux (rewriteElems cs c) c))[j]? =
    (cs[j]?).map (fun c => applyCountAux (rewriteElems cs c) c)
  simp [List.getElem?_map]

theorem rewriteElems_getElem (cs : List TreeNode) (c : TreeNode) (idx : Nat) :
    (rewriteElems cs c)[idx]? =
      (c.path_elements[idx]?).map (fun e => rewriteOne cs idx e) := by
  unfold rewriteElems
  simp [List.getElem?_mapIdx]

theorem rewriteElems_length (cs : List TreeNode) (c : TreeNode) :
    (rewriteElems cs c).length = c.path_elements.length := by
  unfold rewriteElems
  simp

/-- The counting pass never changes an element's originating path element. -/
theorem rewriteOne_path_element (cs : List TreeNode) (idx : Nat)
    (e : ResolvedPathElement) :
    (rewriteOne cs idx e).path_element = e.path_element := by
  unfold rewriteOne
  cases (groupAt cs idx).head? with
  | none => rfl
  | some e0 =>
      by_cases hc : e0.count = true
      · simp [hc]
      · simp [hc]

/-- A group whose first member does not count is left entirely unchanged. -/
theorem rewriteOne_uncounted (cs : List TreeNode) (idx : Nat)
    (e e0 : ResolvedPathElement) (hh : (groupAt cs idx).head? = some e0)
    (hc : e0.count = false) : rewriteOne cs idx e = e := by
  unfold rewriteOne
  rw [hh]
  show (if e0.count = true then
      ⟨e.path_element,
       countValue ((groupAt cs idx).map (fun r => r.resolved_value))
         e.resolved_value⟩
    else e) = e
  rw [hc]
  simp

/-- A group whose first member counts is rewritten to padded indices. -/
theorem rewriteOne_counted (cs : List TreeNode) (idx : Nat)
    (e e0 : ResolvedPathElement) (hh : (groupAt cs idx).head? = some e0)
    (hc : e0.count = true) :
    rewriteOne cs idx e =
      ⟨e.path_element,
       countValue ((groupAt cs idx).map (fun r => r.resolved_value))
         e.resolved_value⟩ := by
  unfold rewriteOne
  rw [hh]
  show (if e0.count = true then
      ⟨e.path_element,
       countValue ((groupAt cs idx).map (fun r => r.resolved_value))
         e.resolved_value⟩
    else e) =
    ⟨e.path_element,
     countValue ((groupAt cs idx).map (fun r => r.resolved_value)) e.resolved_value⟩
  rw [hc]
  simp

/-- The master correspondence between the nodes of `applyCountAux es t` and
the nodes of `t`: positionally the trees are identical, every reached node
of the result is the recursive image of the corresponding original node,
and its elements are the original possibly rewritten — same number, same
originating elements. -/
theorem nodeAt_applyCountAux :
    ∀ (ixs : List Nat) (t : TreeNode) (es : List ResolvedPathElement),
      es.length = t.path_elements.length →
      (∀ idx : Nat,
        (es[idx]?).map (fun (e : ResolvedPathElement) => e.path_element) =
        (t.path_elements[idx]?).map (fun (e : ResolvedPathElement) => e.path_element)) →
      (nodeAt (applyCountAux es t) ixs = none → nodeAt t ixs = none) ∧
      (∀ n, nodeAt t ixs = some n →
        ∃ es2 : List ResolvedPathElement,
          nodeAt (applyCountAux es t) ixs = some (applyCountAux es2 n) ∧
          es2.length = n.path_elements.length ∧
          (∀ idx : Nat,
            (es2[idx]?).map (fun (e : ResolvedPathElement) => e.path_element) =
            (n.path_elements[idx]?).map (fun (e : ResolvedPathElement) => e.path_element))) := by
  intro ixs
  induction ixs with
  | nil =>
      intro t es hlen horig
      constructor
      · intro h; cases h
      · intro n hn
        rw [show nodeAt t [] = some t from rfl] at hn
        injection hn with hn
        subst hn
        exact ⟨es, rfl, hlen, horig⟩
  | cons j rest ih =>
      intro t es _ _
      have hstep : nodeAt (applyCountAux es t) (j :: rest) =
          match (applyCountAux es t).children[j]? with
          | some c => nodeAt c rest
          | none => none := rfl
      have hstep0 : nodeAt t (j :: rest) =
          match t.children[j]? with
          | some c => nodeAt c rest
          | none => none := rfl
      constructor
      · intro h
        rw [hstep0]
        cases hcj : t.children[j]? with
        | none => rfl
        | some c =>
            rw [hstep, applyCountAux_children, hcj] at h
            simp only [Option.map_some'] at h
            have hrec := ih c (rewriteElems t.children c)
              (rewriteElems_length t.children c)
              (fun idx => by
                rw [rewriteElems_getElem]
                cases he : c.path_elements[idx]? with
                | none => rfl
                | some e => simp [rewriteOne_path_element])
            exact hrec.1 h
      · intro n hn
        rw [hstep0] at hn
        cases hcj : t.children[j]? with
        | none => rw [hcj] at hn; cases hn
        | some c =>
            rw [hcj] at hn
            have hrec := ih c (rewriteElems t.children c)
              (rewriteElems_length t.children c)
              (fun idx => by
                rw [rewriteElems_getElem]
                cases he : c.path_elements[idx]? with
                | none => rfl
                | some e => simp [rewriteOne_path_element])
            obtain ⟨es2, hes2, hlen2, horig2⟩ := hrec.2 n hn
            refine ⟨es2, ?_, hlen2, horig2⟩
            rw [hstep, applyCountAux_children, hcj]
            simp only [Option.map_some']
            exact hes2

theorem toDigitsCore_length_mono (b : Nat) :
    ∀ (fuel n : Nat) (ds : List Char),
      ds.length ≤ (Nat.toDigitsCore b fuel n ds).length := by
  intro fuel
  induction fuel with
  | zero => intro n ds; simp [Nat.toDigitsCore]
  | succ f ih =>
      intro n ds
      simp only [Nat.toDigitsCore]
      by_cases h : n / b = 0
      · simp [h]
      · simp only [h, if_false]
        calc ds.length ≤ (Nat.digitChar (n % b) :: ds).length := by simp
        _ ≤ _ := ih (n / b) (Nat.digitChar (n % b) :: ds)

/-- The decimal string of a natural number is never empty (so the padding
width `len(str(len(elementlist)))` is at least 1). -/
theorem one_le_toString_length (n : Nat) : 1 ≤ (toString n).length := by
  show 1 ≤ (Nat.repr n).length
  unfold Nat.repr Nat.toDigits
  show 1 ≤ (Nat.toDigitsCore 10 (n + 1) n []).length
  simp only [Nat.toDigitsCore]
  by_cases h : n / 10 = 0
  · simp [h]
  · simp only [h, if_false]
    have := toDigitsCore_length_mono 10 n (n / 10) [Nat.digitChar (n % 10)]
    simpa using this

theorem nodeAt_applyCountAux_none :
    ∀ (ixs : List Nat) (t : TreeNode) (es : List ResolvedPathElement),
      nodeAt t ixs = none → nodeAt (applyCountAux es t) ixs = none := by
  intro ixs
  induction ixs with
  | nil => intro t es h; cases h
  | cons j rest ih =>
      intro t es h
      have hstep0 : nodeAt t (j :: rest) = (match t.children[j]? with
          | some c => nodeAt c rest
          | none => none) := rfl
      have hstep : nodeAt (applyCountAux es t) (j :: rest) =
          (match (applyCountAux es t).children[j]? with
          | some c => nodeAt c rest
          | none => none) := rfl
      rw [hstep0] at h
      rw [hstep, applyCountAux_children]
      cases hcj : t.children[j]? with
      | none => rfl
      | some c =>
          rw [hcj] at h
          show nodeAt (applyCountAux (rewriteElems t.children c) c) rest = none
          exact ih c _ h

/-- C1, counterexample.  The claim pads indices to the digit count of
`N - 1` (`N` the number of distinct values), but the source uses
`string_length = len(str(len(elementlist)))`, the digit count of the *group
size*.  On a node with ten children carrying ten distinct counted values,
`N - 1 = 9` has one digit, yet the child at index 0 is renamed to the
two-character string `"00"` (`len(str(10)) = 2`). -/
theorem C1_counterexample :
    ¬ (∀ (c2 : TreeNode) (e : ResolvedPathElement),
        (apply_count cexTen).children[0]? = some c2 →
        c2.path_elements[0]? = some e →
        e.resolved_value.length =
          (toString ((((groupAt cexTen.children 0).map
            (fun r => r.resolved_value)).dedup).length - 1)).length) := by
  intro hclaim
  have h1 : (apply_count cexTen).children[0]? =
      some (applyCountAux (rewriteElems cexTen.children
        (.node [countedRPE "v0"] [])) (.node [countedRPE "v0"] [])) := by
    show (applyCountAux cexTen.path_elements cexTen).children[0]? = _
    rw [applyCountAux_children]
    rfl
  have h2 : (applyCountAux (rewriteElems cexTen.children (.node [countedRPE "v0"] []))
      (.node [countedRPE "v0"] [])).path_elements[0]? =
      some ⟨some (.dicomTag "0010,0020" true), "00"⟩ := by
    rw [applyCountAux_path_elements]
    decide
  have hcontra := hclaim _ _ h1 h2
  exact absurd hcontra (by decide)

/-- C1, amended: `apply_count`, at any node of the tree whose sibling group
at position `idx` is flagged count (first member counts), assigns each
distinct resolved value in the group a unique integer index `0 .. N-1`
(`N` the number of distinct values, every index used), rewrites every group
member's resolved value to its assigned index string, and zero-pads every
index string to width equal to the decimal digit count of the *group size*
(the number of member elements, `len(str(len(elementlist)))`), which is at
least 1. -/
theorem C1_count_assignment (t : TreeNode) (ixs : List Nat) (n : TreeNode)
    (hn : nodeAt t ixs = some n) (idx : Nat) (e0 : ResolvedPathElement)
    (hh : (groupAt n.children idx).head? = some e0) (hc : e0.count = true) :
    C1Concl t ixs n idx := by
  obtain ⟨-, hsome⟩ := nodeAt_applyCountAux ixs t t.path_elements rfl (fun _ => rfl)
  obtain ⟨es2, hes2, -, -⟩ := hsome n hn
  refine ⟨applyCountAux es2 n, hes2, ?_, List.nodup_dedup _, ?_, ?_,
    one_le_toString_length _⟩
  · intro j c e hcj hce
    refine ⟨applyCountAux (rewriteElems n.children c) c, ?_, ?_⟩
    · rw [applyCountAux_children, hcj]
      rfl
    · rw [applyCountAux_path_elements, rewriteElems_getElem, hce]
      simp only [Option.map_some', Option.some.injEq]
      rw [rewriteOne_counted n.children idx e e0 hh hc]
      unfold countValue
      rw [List.length_map]
  · intro v hv
    exact List.indexOf_lt_length.mpr hv
  · intro i hi
    refine ⟨(((groupAt n.children idx).map (fun r => r.resolved_value)).dedup).get
      ⟨i, hi⟩, List.get_mem _ i hi, ?_⟩
    have hnd : ((((groupAt n.children idx).map
        (fun r => r.resolved_value)).dedup)).Nodup := List.nodup_dedup _
    have hmem := List.get_mem (((groupAt n.children idx).map
      (fun r => r.resolved_value)).dedup) i hi
    have hlt := List.indexOf_lt_length.mpr hmem
    have hget := List.indexOf_get hlt
    have hfin := (hnd.get_inj_iff).mp hget
    simpa using hfin

/-- C1, witness: the amended theorem applied at the root of the ten-child
example `cexTen` (the padded index strings there are `"00" .. "09"`). -/
theorem C1_witness :
    nodeAt cexTen [] = some cexTen ∧
    (groupAt cexTen.children 0).head? = some (countedRPE "v0") ∧
    (countedRPE "v0").count = true ∧
    C1Concl cexTen [] cexTen 0 :=
  ⟨rfl, by decide, by decide,
   C1_count_assignment cexTen [] cexTen rfl 0 (countedRPE "v0")
     (by decide) (by decide)⟩

/-- C10: the counting pass is a pure rename of resolved values inside
counted sibling groups.  It never adds or removes tree nodes (node addresses
valid in the original tree are exactly those valid in the result), keeps
every node's child count and element count, never changes any element's
originating path element, and leaves the resolved values of a group whose
first member does not count entirely unchanged. -/
theorem C10_apply_count_frame (t : TreeNode) :
    (apply_count t).path_elements = t.path_elements ∧
    (∀ ixs : List Nat, nodeAt (apply_count t) ixs = none ↔ nodeAt t ixs = none) ∧
    (∀ (ixs : List Nat) (n : TreeNode), nodeAt t ixs = some n →
      ∃ n', nodeAt (apply_count t) ixs = some n' ∧
        n'.children.length = n.children.length ∧
        n'.path_elements.length = n.path_elements.length ∧
        (∀ idx : Nat,
          (n'.path_elements[idx]?).map (fun (e : ResolvedPathElement) => e.path_element) =
          (n.path_elements[idx]?).map (fun (e : ResolvedPathElement) => e.path_element)) ∧
        (∀ (idx j : Nat) (e0 : ResolvedPathElement) (c : TreeNode),
          (groupAt n.children idx).head? = some e0 → e0.count = false →
          n.children[j]? = some c →
          ∃ c', n'.children[j]? = some c' ∧
            c'.path_elements[idx]? = c.path_elements[idx]?)) := by
  refine ⟨applyCountAux_path_elements _ _, ?_, ?_⟩
  · intro ixs
    constructor
    · exact (nodeAt_applyCountAux ixs t t.path_elements rfl (fun _ => rfl)).1
    · exact nodeAt_applyCountAux_none ixs t t.path_elements
  · intro ixs n hn
    obtain ⟨-, hsome⟩ := nodeAt_applyCountAux ixs t t.path_elements rfl (fun _ => rfl)
    obtain ⟨es2, hes2, hlen2, horig2⟩ := hsome n hn
    refine ⟨applyCountAux es2 n, hes2, ?_, ?_, ?_, ?_⟩
    · obtain ⟨es0, cs⟩ := n
      rw [applyCountAux_node]
      show (cs.map (fun c => applyCountAux (rewriteElems cs c) c)).length = cs.length
      simp
    · rw [applyCountAux_path_elements]
      exact hlen2
    · intro idx
      rw [applyCountAux_path_elements]
      exact horig2 idx
    · intro idx j e0 c hh hc hcj
      refine ⟨applyCountAux (rewriteElems n.children c) c, ?_, ?_⟩
      · rw [applyCountAux_children, hcj]
        rfl
      · rw [applyCountAux_path_elements, rewriteElems_getElem]
        cases he : c.path_elements[idx]? with
        | none => rfl
        | some e =>
            simp only [Option.map_some']
            rw [rewriteOne_uncounted n.children idx e e0 hh hc]

/-- C10, witness: the frame theorem applied to a tree whose single group is
uncounted — the child's element survives `apply_count` unchanged. -/
theorem C10_witness :
    nodeAt wUncounted [] = some wUncounted ∧
    (groupAt wUncounted.children 0).head? = some ⟨some (.stringLiteral "a"), "a"⟩ ∧
    (⟨some (.stringLiteral "a"), "a"⟩ : ResolvedPathElement).count = false ∧
    wUncounted.children[0]? = some (.node [⟨some (.stringLiteral "a"), "a"⟩] []) ∧
    ∃ n', nodeAt (apply_count wUncounted) [] = some n' ∧
      ∃ c', n'.children[0]? = some c' ∧
        c'.path_elements[0]? =
          (TreeNode.node [⟨some (.stringLiteral "a"), "a"⟩] []).path_elements[0]? := by
  refine ⟨rfl, by decide, by decide, rfl, ?_⟩
  obtain ⟨n', hn', -, -, -, hunc⟩ :=
    (C10_apply_count_frame wUncounted).2.2 [] wUncounted rfl
  obtain ⟨c', hc', heq⟩ := hunc 0 0 ⟨some (.stringLiteral "a"), "a"⟩
    (.node [⟨some (.stringLiteral "a"), "a"⟩] []) (by decide) (by decide) rfl
  exact ⟨n', hn', c', hc', heq⟩

/-! ## Lemmas about the full mapper pipeline -/

theorem chain_isSome_iff :
    ∀ (ixs : List Nat) (t : TreeNode),
      (TreeNode.chain t ixs).isSome = (nodeAt t ixs).isSome := by
  intro ixs
  induction ixs with
  | nil => intro t; rfl
  | cons i rest ih =>
      intro t
      have hstep : nodeAt t (i :: rest) = (match t.children[i]? with
          | some c => nodeAt c rest
          | none => none) := rfl
      rw [hstep]
      cases hci : t.children[i]? with
      | none => rw [chain_cons_none hci]; rfl
      | some c =>
          rw [chain_cons_some hci]
          rw [Option.isSome_map']
          exact ih c

theorem treeFlatDict_total :
    ∀ (data : List (String × List Nat)) (t : TreeNode),
      (∀ pr ∈ data, (TreeNode.chain t pr.2).isSome = true) →
      ∃ flat, treeFlatDict ⟨t, data⟩ = some flat := by
  intro data
  induction data with
  | nil => intro t _; exact ⟨[], rfl⟩
  | cons pr rest ih =>
      intro t hall
      have hpr := hall pr (by simp)
      obtain ⟨ns, hns⟩ := Option.isSome_iff_exists.mp hpr
      obtain ⟨flat2, hflat2⟩ := ih t (fun q hq => hall q (by simp [hq]))
      refine ⟨(pr.1, String.intercalate osSep (ns.map TreeNode.flatten)) :: flat2, ?_⟩
      unfold treeFlatDict at hflat2 ⊢
      simp only [List.mapM_cons]
      rw [show flattenChain t pr.2 = some (String.intercalate osSep
        (ns.map TreeNode.flatten)) from by unfold flattenChain; rw [hns]; rfl]
      simp only [Option.map_some'] at hflat2 ⊢
      rw [hflat2]
      rfl

/-- With nonempty tentative paths the pipeline always reaches its checks:
the tree builds and the counted tree flattens. -/
theorem fullMap_reaches (straight : List (String × TentativePath))
    (hne : ∀ pr ∈ straight, pr.2.units ≠ []) :
    ∃ tm flat, as_tree straight = some tm ∧
      treeFlatDict ⟨apply_count tm.root, tm.data⟩ = some flat := by
  obtain ⟨tf, ds, haddAll, _, _, hfa⟩ :=
    addAll_spec straight (.node [] []) (sibDistinct_nil []) hne
  have hchains : ∀ pr ∈ ds, (TreeNode.chain (apply_count tf) pr.2).isSome = true := by
    intro pr hpr
    obtain ⟨j, hj⟩ := List.getElem?_of_mem hpr
    obtain ⟨b, _, hR⟩ := forall2_getElem? hfa j pr hj
    obtain ⟨_, ns, hns, _⟩ := hR
    have h1 : (TreeNode.chain tf pr.2).isSome = true := by rw [hns]; rfl
    rw [chain_isSome_iff] at h1
    obtain ⟨n, hn⟩ := Option.isSome_iff_exists.mp h1
    obtain ⟨-, hsome⟩ :=
      nodeAt_applyCountAux pr.2 tf tf.path_elements rfl (fun _ => rfl)
    obtain ⟨es2, hes2, -, -⟩ := hsome n hn
    rw [chain_isSome_iff]
    show (nodeAt (applyCountAux tf.path_elements tf) pr.2).isSome = true
    rw [hes2]
    rfl
  obtain ⟨flat, hflat⟩ := treeFlatDict_total ds (apply_count tf) hchains
  refine ⟨⟨tf, ds⟩, flat, ?_, hflat⟩
  unfold as_tree
  rw [haddAll]
  rfl

/-- `FullPathMapper.map` evaluated past tree building and flattening: the
three checks run in their source order. -/
theorem fullMap_eq (cpl : Bool) (straight : List (String × TentativePath))
    (tm : PathTreeMapping) (flat : List (String × String))
    (h1 : as_tree straight = some tm)
    (h2 : treeFlatDict ⟨apply_count tm.root, tm.data⟩ = some flat) :
    fullMap cpl straight = some
      (if (get_overlapping flat).isEmpty = false then .error .overlapping
       else if flat.any (fun pr => flat.any (fun pr2 => pr2.1 = pr.2)) then
         .error .selfOverwrite
       else if cpl && flat.any (fun pr => WINDOWS_PATH_LENGTH_LIMIT < pr.2.length) then
         .error .pathTooLong
       else .ok flat) := by
  unfold fullMap
  rw [h1]
  show (treeFlatDict ⟨apply_count tm.root, tm.data⟩).map _ = _
  rw [h2]
  rfl

theorem mem_originsFor (flat : List (String × String)) (d o : String) :
    o ∈ originsFor flat d ↔ (o, d) ∈ flat := by
  unfold originsFor
  simp only [List.mem_map, List.mem_filter]
  constructor
  · rintro ⟨pr, ⟨hmem, hd⟩, rfl⟩
    obtain ⟨a, b⟩ := pr
    simp only [decide_eq_true_eq] at hd
    subst hd
    exact hmem
  · intro h
    exact ⟨(o, d), ⟨h, by simp⟩, rfl⟩

theorem originsFor_nodup (flat : List (String × String))
    (h : (flat.map (fun pr => pr.1)).Nodup) (d : String) :
    (originsFor flat d).Nodup := by
  unfold originsFor
  exact ((List.filter_sublist flat).map (fun pr => pr.1)).nodup h

theorem get_overlapping_mem (flat : List (String × String)) (d : String)
    (os : List String) :
    (d, os) ∈ get_overlapping flat ↔
      (os = originsFor flat d ∧ 2 ≤ os.length) := by
  unfold get_overlapping
  simp only [List.mem_filterMap]
  constructor
  · rintro ⟨d0, _, hif⟩
    by_cases h : 1 < (originsFor flat d0).length
    · rw [if_pos h] at hif
      injection hif with hif
      obtain ⟨rfl, rfl⟩ := Prod.mk.injEq .. |>.mp hif
      exact ⟨rfl, h⟩
    · rw [if_neg h] at hif
      cases hif
  · rintro ⟨rfl, hlen⟩
    refine ⟨d, ?_, ?_⟩
    · rw [List.mem_dedup]
      have hne : originsFor flat d ≠ [] := by
        intro hh
        rw [hh] at hlen
        simp at hlen
      cases hf : flat.filter (fun pr => pr.2 = d) with
      | nil =>
          exfalso
          apply hne
          unfold originsFor
          rw [hf]
          rfl
      | cons p rest =>
          have hp : p ∈ flat.filter (fun pr => pr.2 = d) := by
            rw [hf]
            exact List.mem_cons_self p rest
          have hmem := List.mem_filter.mp hp
          have hpd : p.2 = d := by simpa using hmem.2
          rw [← hpd]
          exact List.mem_map_of_mem (fun pr => pr.2) hmem.1
    · rw [if_pos (by omega)]

/-- C7: `get_overlapping` returns exactly the destinations with two or more
distinct origins, each with the complete list of its origins; two distinct
items collapsing to one destination give one group with both; and
`FullPathMapper.map` raises the overlapping-destination error exactly when
this result is non-empty. -/
theorem C7_overlap_detection :
    (∀ flat : List (String × String), ((flat.map (fun pr => pr.1)).Nodup) →
      ∀ (d : String) (os : List String),
        ((d, os) ∈ get_overlapping flat ↔
          os = originsFor flat d ∧ 2 ≤ os.length) ∧
        (os = originsFor flat d →
          (∀ o, o ∈ os ↔ (o, d) ∈ flat) ∧ os.Nodup)) ∧
    (∀ o1 o2 d : String, o1 ≠ o2 →
      get_overlapping [(o1, d), (o2, d)] = [(d, [o1, o2])]) ∧
    (∀ (cpl : Bool) (straight : List (String × TentativePath)),
      (∀ pr ∈ straight, pr.2.units ≠ []) →
      ∃ tm flat, as_tree straight = some tm ∧
        treeFlatDict ⟨apply_count tm.root, tm.data⟩ = some flat ∧
        (fullMap cpl straight = some (.error .overlapping) ↔
          get_overlapping flat ≠ [])) := by
  refine ⟨?_, ?_, ?_⟩
  · intro flat hnd d os
    refine ⟨get_overlapping_mem flat d os, ?_⟩
    rintro rfl
    exact ⟨fun o => mem_originsFor flat d o, originsFor_nodup flat hnd d⟩
  · intro o1 o2 d _
    show (([(o1, d), (o2, d)].map (fun pr => pr.2)).dedup).filterMap _ = _
    have hdd : ([(o1, d), (o2, d)].map (fun pr => pr.2)).dedup = [d] := by
      show ([d, d] : List String).dedup = [d]
      simp
    rw [hdd]
    have horg : originsFor [(o1, d), (o2, d)] d = [o1, o2] := by
      unfold originsFor
      simp
    simp only [List.filterMap, horg]
    rfl
  · intro cpl straight hne
    obtain ⟨tm, flat, h1, h2⟩ := fullMap_reaches straight hne
    refine ⟨tm, flat, h1, h2, ?_⟩
    rw [fullMap_eq cpl straight tm flat h1 h2]
    constructor
    · intro hfm hemp
      rw [hemp] at hfm
      rw [if_neg (by simp)] at hfm
      by_cases hb1 : flat.any (fun pr => flat.any (fun pr2 => pr2.1 = pr.2)) = true
      · rw [if_pos hb1] at hfm
        injection hfm with hfm
        cases hfm
      · rw [if_neg hb1] at hfm
        by_cases hb2 : (cpl &&
            flat.any (fun pr => WINDOWS_PATH_LENGTH_LIMIT < pr.2.length)) = true
        · rw [if_pos hb2] at hfm
          injection hfm with hfm
          cases hfm
        · rw [if_neg hb2] at hfm
          injection hfm with hfm
          cases hfm
    · intro hne2
      rw [if_pos (by
        cases hh : (get_overlapping flat).isEmpty
        · rfl
        · exact absurd (List.isEmpty_iff.mp hh) hne2)]

/-- C7, witness: the membership characterisation on a concrete two-item
flat mapping, the two-item group itself, and the pipeline equivalence on
`wMap` (whose destinations do not overlap). -/
theorem C7_witness :
    ((([("a", "d"), ("b", "d")] : List (String × String)).map (fun pr => pr.1)).Nodup) ∧
    (("d", ["a", "b"]) ∈ get_overlapping [("a", "d"), ("b", "d")] ↔
      ["a", "b"] = originsFor [("a", "d"), ("b", "d")] "d" ∧
        2 ≤ (["a", "b"] : List String).length) ∧
    get_overlapping [("a", "d"), ("b", "d")] = [("d", ["a", "b"])] ∧
    (∀ pr ∈ wMap, pr.2.units ≠ []) ∧
    (∃ tm flat, as_tree wMap = some tm ∧
      treeFlatDict ⟨apply_count tm.root, tm.data⟩ = some flat ∧
      (fullMap true wMap = some (.error .overlapping) ↔
        get_overlapping flat ≠ [])) := by
  refine ⟨by decide, ?_, ?_, by decide, ?_⟩
  · exact ((C7_overlap_detection.1 [("a", "d"), ("b", "d")] (by decide)) "d" ["a", "b"]).1
  · exact C7_overlap_detection.2.1 "a" "b" "d" (by decide)
  · exact C7_overlap_detection.2.2 true wMap (by decide)

theorem apply_count_cexLong : apply_count cexLongTm.root = cexLongTm.root := by
  show applyCountAux cexLongTm.root.path_elements cexLongTm.root = cexLongTm.root
  show applyCountAux []
    (.node [] [.node [⟨some (.stringLiteral longName), longName⟩] []]) = _
  rw [applyCountAux_node]
  have hre : rewriteElems [.node [⟨some (.stringLiteral longName), longName⟩] []]
      (.node [⟨some (.stringLiteral longName), longName⟩] []) =
      [⟨some (.stringLiteral longName), longName⟩] := by decide
  simp only [List.map_cons, List.map_nil, hre]
  rw [applyCountAux_node]
  rfl

/-- C8, counterexample.  The claim makes `FullPathMapper.map` raise the
path-too-long error *iff* some destination exceeds 260 characters (when
length checking is enabled).  But the length check is the last of three
checks: on `cexLongMap`, whose two items collide on one 300-character
destination, `map` raises the overlapping error instead — a destination
exceeds the limit and yet no path-length error is raised. -/
theorem C8_counterexample :
    ¬ (∀ res : Except MappingError (List (String × String)),
        fullMap true cexLongMap = some res →
        (res = .error .pathTooLong ↔
          ∃ pr ∈ cexLongFlat, WINDOWS_PATH_LENGTH_LIMIT < pr.2.length)) := by
  intro hclaim
  have h1 : as_tree cexLongMap = some cexLongTm := rfl
  have h2 : treeFlatDict ⟨apply_count cexLongTm.root, cexLongTm.data⟩ =
      some cexLongFlat := by
    rw [apply_count_cexLong]
    rfl
  have hfm : fullMap true cexLongMap = some (.error .overlapping) := by
    rw [fullMap_eq true cexLongMap cexLongTm cexLongFlat h1 h2]
    rw [if_pos (by decide)]
  have hiff := hclaim (.error .overlapping) hfm
  have hex : ∃ pr ∈ cexLongFlat, WINDOWS_PATH_LENGTH_LIMIT < pr.2.length := by decide
  have hbad := hiff.mpr hex
  simp at hbad

/-- C8, amended: with nonempty tentative paths the pipeline reaches its
checks, and (when length checking is enabled) `FullPathMapper.map` raises
the path-too-long error iff some resolved destination exceeds 260
characters *and* neither the overlapping-destination check nor the
unsafe-mapping check fired first; with length checking disabled no
path-length error is ever raised. -/
theorem C8_path_length_check (cpl : Bool)
    (straight : List (String × TentativePath))
    (hne : ∀ pr ∈ straight, pr.2.units ≠ []) :
    ∃ tm flat, as_tree straight = some tm ∧
      treeFlatDict ⟨apply_count tm.root, tm.data⟩ = some flat ∧
      (fullMap cpl straight = some (.error .pathTooLong) ↔
        (cpl = true ∧ (get_overlapping flat).isEmpty = true ∧
         flat.any (fun pr => flat.any (fun pr2 => pr2.1 = pr.2)) = false ∧
         flat.any (fun pr => WINDOWS_PATH_LENGTH_LIMIT < pr.2.length) = true)) ∧
      (cpl = false → fullMap cpl straight ≠ some (.error .pathTooLong)) := by
  obtain ⟨tm, flat, h1, h2⟩ := fullMap_reaches straight hne
  have hfm := fullMap_eq cpl straight tm flat h1 h2
  have hmain : fullMap cpl straight = some (.error .pathTooLong) ↔
      (cpl = true ∧ (get_overlapping flat).isEmpty = true ∧
       flat.any (fun pr => flat.any (fun pr2 => pr2.1 = pr.2)) = false ∧
       flat.any (fun pr => WINDOWS_PATH_LENGTH_LIMIT < pr.2.length) = true) := by
    rw [hfm]
    cases hb0 : (get_overlapping flat).isEmpty with
    | false =>
        rw [if_pos rfl]
        constructor
        · intro hh
          injection hh with hh
          cases hh
        · rintro ⟨-, hb0', -, -⟩
          cases hb0'
    | true =>
        rw [if_neg (by simp)]
        by_cases hb1 : flat.any (fun pr => flat.any (fun pr2 => pr2.1 = pr.2)) = true
        · rw [if_pos hb1]
          constructor
          · intro hh
            injection hh with hh
            cases hh
          · rintro ⟨-, -, hb1', -⟩
            rw [hb1] at hb1'
            cases hb1'
        · rw [if_neg hb1]
          by_cases hb2 : (cpl &&
              flat.any (fun pr => WINDOWS_PATH_LENGTH_LIMIT < pr.2.length)) = true
          · rw [if_pos hb2]
            simp only [Bool.and_eq_true] at hb2
            constructor
            · intro _
              exact ⟨hb2.1, rfl, by simpa using hb1, hb2.2⟩
            · intro _
              rfl
          · rw [if_neg hb2]
            constructor
            · intro hh
              injection hh with hh
              cases hh
            · rintro ⟨hcpl, -, -, hlong⟩
              exact absurd (by rw [hcpl, hlong]; rfl : (cpl &&
                flat.any (fun pr => WINDOWS_PATH_LENGTH_LIMIT < pr.2.length)) = true)
                hb2
  refine ⟨tm, flat, h1, h2, hmain, ?_⟩
  intro hcpl hfalse
  obtain ⟨hcpl', -, -, -⟩ := hmain.mp hfalse
  rw [hcpl] at hcpl'
  cases hcpl'

/-- C8, witness: the amended theorem applied with length checking disabled
on the colliding overlong mapping (no length error can be raised). -/
theorem C8_witness :
    (∀ pr ∈ cexLongMap, pr.2.units ≠ []) ∧
    (∃ tm flat, as_tree cexLongMap = some tm ∧
      treeFlatDict ⟨apply_count tm.root, tm.data⟩ = some flat ∧
      (fullMap false cexLongMap = some (.error .pathTooLong) ↔
        (false = true ∧ (get_overlapping flat).isEmpty = true ∧
         flat.any (fun pr => flat.any (fun pr2 => pr2.1 = pr.2)) = false ∧
         flat.any (fun pr => WINDOWS_PATH_LENGTH_LIMIT < pr.2.length) = true)) ∧
      (false = false → fullMap false cexLongMap ≠ some (.error .pathTooLong))) :=
  ⟨by decide, C8_path_length_check false cexLongMap (by decide)⟩

end Dicomsort
